import Mathlib

/-!
Verification of the Gomoku (five-in-a-row) board core from
`gomoku/board.py` (class `GoBoard`) and `gomoku4/simple_board.py`
(class `SimpleGoBoard`).

The board is a flat array of cells (`List ℕ` here, numpy array in the
source) holding one of the four cell values EMPTY/BLACK/WHITE/BORDER,
with one-dimensional padding: row `r`, column `c` of an `n × n` board is
index `r * (n+1) + c`, rows and columns `1..n` are playable, everything
else is BORDER padding.

Pure functions of the source are translated to Lean functions;
`while` loops become fueled recursions (the fuel is always provably
sufficient on the states the theorems quantify over); mutation of
`self.board` becomes explicit `List.set`; a Python `assert` or attribute
error becomes an `Option` result where a theorem depends on it.

The constants and small helpers imported from `board_util.py` (a file of
the repository that is not part of the sources given here) are modelled
from the spec where needed; each such definition is marked
`Modelled from the spec:` in its doc comment.
-/

namespace Gomoku

/-- Modelled from the spec: `board_util.EMPTY` — the empty-cell marker. -/
def EMPTY : ℕ := 0

/-- Modelled from the spec: `board_util.BLACK` — the black-stone cell value. -/
def BLACK : ℕ := 1

/-- Modelled from the spec: `board_util.WHITE` — the white-stone cell value. -/
def WHITE : ℕ := 2

/-- Modelled from the spec: `board_util.BORDER` — the padding cell value,
"permanently BORDER" per the spec. -/
def BORDER : ℕ := 3

/-- Modelled from the spec: `board_util.MAXSIZE`, the "fixed maximum" board
size accepted by the constructors.  Its exact value is irrelevant to every
claim below. -/
def MAXSIZE : ℕ := 25

/-- Modelled from the spec: `board_util.is_black_white(color)`. -/
def is_black_white (c : ℕ) : Prop := c = BLACK ∨ c = WHITE

instance (c : ℕ) : Decidable (is_black_white c) := by
  unfold is_black_white; infer_instance

/-- Modelled from the spec: `GoBoardUtil.opponent(color)` — "flips
`current_player` to the opponent".  The source also writes it inline as
`WHITE + BLACK - color`. -/
def opponent (c : ℕ) : ℕ := WHITE + BLACK - c

/-- `self.NS = size + 1`: the row stride of the padded array. -/
def NS (size : ℕ) : ℕ := size + 1

/-- `self.maxpoint = size * size + 3 * (size + 1)`: the length of the flat
board array (`board.py` `reset`, `simple_board.py` `reset`). -/
def maxpoint (size : ℕ) : ℕ := size * size + 3 * (size + 1)

/-- Modelled from the spec: `board_util.coord_to_point(row, col, boardsize)`;
the spec fixes the padded layout, so row `r` starts at `r * NS` and column
`c` sits at offset `c` (this also matches `row_start` in the sources). -/
def pt (size row col : ℕ) : ℕ := row * NS size + col

/-- `row_start(row) = row * self.NS + 1` (the asserts `1 ≤ row ≤ size` hold
at every call site reached below). -/
def row_start (size row : ℕ) : ℕ := row * NS size + 1

/-- `get_color(point) = self.board[point]`.  Out-of-range reads do not occur
on the executions the theorems below quantify over; the default `BORDER`
only pads the total function. -/
def get_color (b : List ℕ) (p : ℕ) : ℕ := b.getD p BORDER

/-- Interior (playable) points: row and column in `1..size`. -/
def interior (size p : ℕ) : Prop :=
  1 ≤ p / NS size ∧ p / NS size ≤ size ∧ 1 ≤ p % NS size ∧ p % NS size ≤ size

instance (size p : ℕ) : Decidable (interior size p) := by
  unfold interior; infer_instance

/-- Modelled from the spec: `board_util.where1d(condition)` — the ascending
indices at which a cell predicate holds (`np.where` on a 1-d array). -/
def where1d (b : List ℕ) (c : ℕ) : List ℕ :=
  (List.range b.length).filter (fun p => get_color b p = c)

/-- One numpy slice assignment `board[start : start + len] = EMPTY`,
written as `len` single-cell writes. -/
def set_range (b : List ℕ) (start : ℕ) : ℕ → List ℕ
  | 0 => b
  | len + 1 => set_range (b.set start EMPTY) (start + 1) len

/-- `_initialize_empty_points(board)`: for each row `1..size`, fill
`board[start : start + size]` with EMPTY. -/
def initialize_empty_points (size : ℕ) (b : List ℕ) : List ℕ :=
  (List.range' 1 size).foldl (fun bb r => set_range bb (row_start size r) size) b

/-- The board array built by `reset(size)`:
`np.full(maxpoint, BORDER)` then `_initialize_empty_points`. -/
def reset_board (size : ℕ) : List ℕ :=
  initialize_empty_points size (List.replicate (maxpoint size) BORDER)

/-- `undo_all_move(point_list)`: reset every listed point to EMPTY. -/
def undo_all_move (b : List ℕ) (ps : List ℕ) : List ℕ :=
  ps.foldl (fun bb p => bb.set p EMPTY) b

/-- `play_move_gomoku(point, color)` of `simple_board.py`: fail if the cell
is not EMPTY; otherwise write the color and flip `current_player`.
Result: (was the move legal, board array, current_player). -/
def play_move_gomoku (b : List ℕ) (cur : ℕ) (point color : ℕ) :
    Bool × List ℕ × ℕ :=
  if get_color b point ≠ EMPTY then (false, b, cur)
  else (true, b.set point color, opponent color)

/-- The mutable fields of `gomoku/board.py`'s `GoBoard` that `play_move`
touches on the gomoku path (captures/suicide/ko are commented out in the
source). -/
structure GoSt where
  board : List ℕ
  current_player : ℕ
  last_move : Option ℕ
  last2_move : Option ℕ
  deriving DecidableEq, Repr

/-- `play_move(point, color)` of `gomoku/board.py` for an on-board `point`
(the `point == PASS` special case is unreachable for array points, PASS not
being a board index). -/
def play_move (s : GoSt) (point color : ℕ) : Bool × GoSt :=
  if get_color s.board point ≠ EMPTY then (false, s)
  else
    (true,
      { board := s.board.set point color
        current_player := opponent color
        last_move := some point
        last2_move := s.last_move })


/-! ### Terminal detection (`gomoku/board.py`) -/

/-- The row point lists precomputed by `calculate_rows_cols_diags`:
row `i` is `range(row_start(i), row_start(i) + size)`. -/
def rows_list (size : ℕ) : List (List ℕ) :=
  (List.range' 1 size).map (fun i => List.range' (row_start size i) size)

/-- The column point lists of `calculate_rows_cols_diags`:
column `i` is `range(row_start(1) + i - 1, row_start(size) + i, NS)`. -/
def cols_list (size : ℕ) : List (List ℕ) :=
  (List.range' 1 size).map (fun i => List.range' (NS size + i) size (NS size))

/-- One step of the south-east diagonal walk: `pt += self.NS + 1`. -/
def step_se (size p : ℕ) : ℕ := p + NS size + 1

/-- One step of the north-east diagonal walk: `pt += -self.NS + 1`
(the walk only ever steps from points `p ≥ NS`, where ℕ subtraction is
exact). -/
def step_ne (size p : ℕ) : ℕ := p + 1 - NS size

/-- The `while self.get_color(pt) == EMPTY: append; step` loops of
`calculate_rows_cols_diags`, with explicit fuel (the loops below always
stop at a BORDER cell long before the fuel `maxpoint` runs out). -/
def diag_walk (b : List ℕ) (step : ℕ → ℕ) : ℕ → ℕ → List ℕ
  | 0, _ => []
  | fuel + 1, p =>
      if get_color b p = EMPTY then p :: diag_walk b step fuel (step p) else []

/-- The diagonal point lists of `calculate_rows_cols_diags`, walking over
the board `b` (at `reset` time, the fresh empty board): diagonals of
length ≥ 5 towards SE from the first row, towards SE and NE from the first
column (rows 2..size), and towards NE from `row_start(size)+1` onwards. -/
def diags_of (size : ℕ) (b : List ℕ) : List (List ℕ) :=
  let fuel := maxpoint size
  ((List.range' (row_start size 1) size).flatMap (fun i =>
      let d := diag_walk b (step_se size) fuel i
      if 5 ≤ d.length then [d] else [])) ++
  ((List.range' (2 * NS size + 1) (size - 1) (NS size)).flatMap (fun i =>
      (let d := diag_walk b (step_se size) fuel i
       if 5 ≤ d.length then [d] else []) ++
      (let d := diag_walk b (step_ne size) fuel i
       if 5 ≤ d.length then [d] else []))) ++
  ((List.range' (size * NS size + 2) size).flatMap (fun i =>
      let d := diag_walk b (step_ne size) fuel i
      if 5 ≤ d.length then [d] else []))

/-- `self.diags` as computed by `reset(size)` (the board is fresh there). -/
def diags_list (size : ℕ) : List (List ℕ) := diags_of size (reset_board size)

/-- The scanning loop of `has_five_in_list`, carrying `prev` and
`counter`. -/
def has_five_scan (b : List ℕ) : ℕ → ℕ → List ℕ → ℕ
  | _, _, [] => EMPTY
  | prev, counter, s :: rest =>
      let cx := get_color b s
      let counter' := if cx = prev then counter + 1 else 1
      let prev' := if cx = prev then prev else cx
      if counter' = 5 ∧ prev' ≠ EMPTY then prev' else has_five_scan b prev' counter' rest

/-- `has_five_in_list(list)`: first color of five consecutive equal
non-EMPTY cells along the point list, else EMPTY. -/
def has_five_in_list (b : List ℕ) (l : List ℕ) : ℕ := has_five_scan b BORDER 1 l

/-- One `for r in lists: if has_five_in_list(r) != EMPTY: return` loop of
`detect_five_in_a_row`. -/
def scan_line_lists (b : List ℕ) : List (List ℕ) → ℕ
  | [] => EMPTY
  | l :: L =>
      let r := has_five_in_list b l
      if r ≠ EMPTY then r else scan_line_lists b L

/-- The body of `detect_five_in_a_row`: scan rows, then cols, then diags,
returning the first winner found, else EMPTY. -/
def detect_lists (b : List ℕ) (rows cols diags : List (List ℕ)) : ℕ :=
  let r1 := scan_line_lists b rows
  if r1 ≠ EMPTY then r1
  else
    let r2 := scan_line_lists b cols
    if r2 ≠ EMPTY then r2 else scan_line_lists b diags

/-- `detect_five_in_a_row()` on a board array `b` of a size-`size`
`GoBoard` (whose `rows`/`cols`/`diags` were computed at reset time). -/
def detect_five_in_a_row (size : ℕ) (b : List ℕ) : ℕ :=
  detect_lists b (rows_list size) (cols_list size) (diags_list size)

/-- Characterization segment: the SE diagonal of `len` points starting at
row `r`, column `c`. -/
def se_seg (size r c len : ℕ) : List ℕ :=
  (List.range len).map (fun k => pt size (r + k) (c + k))

/-- Characterization segment: the NE diagonal of `len` points starting at
row `r`, column `c` (row decreasing, column increasing). -/
def ne_seg (size r c len : ℕ) : List ℕ :=
  (List.range len).map (fun k => pt size (r - k) (c + k))

/-- Follows the spec's words ("an unbroken run of five same-colored stones
along some row, column, or diagonal"): there are five consecutive interior
cells of color `col` in one of the four line directions. -/
def spec_five_run (size : ℕ) (b : List ℕ) (col : ℕ) : Prop :=
  (∃ r ∈ Finset.Icc 1 size, ∃ c ∈ Finset.Icc 1 size, c + 4 ≤ size ∧
      ∀ k ∈ Finset.range 5, get_color b (pt size r (c + k)) = col) ∨
  (∃ r ∈ Finset.Icc 1 size, ∃ c ∈ Finset.Icc 1 size, r + 4 ≤ size ∧
      ∀ k ∈ Finset.range 5, get_color b (pt size (r + k) c) = col) ∨
  (∃ r ∈ Finset.Icc 1 size, ∃ c ∈ Finset.Icc 1 size, r + 4 ≤ size ∧ c + 4 ≤ size ∧
      ∀ k ∈ Finset.range 5, get_color b (pt size (r + k) (c + k)) = col) ∨
  (∃ r ∈ Finset.Icc 1 size, ∃ c ∈ Finset.Icc 1 size, r + 4 ≤ size ∧ c + 4 ≤ size ∧
      ∀ k ∈ Finset.range 5, get_color b (pt size (r + 4 - k) (c + k)) = col)

instance (size : ℕ) (b : List ℕ) (col : ℕ) : Decidable (spec_five_run size b col) := by
  unfold spec_five_run; infer_instance

/-! ### Random rollout (`gomoku/board.py`, `random_policy`) -/

/-- The explicit color flip inside `random_policy`'s loop. -/
def rp_flip (c : ℕ) : ℕ := if c = BLACK then WHITE else if c = WHITE then BLACK else c

/-- The `for empty_point in empty_points` loop of `random_policy`: place
alternating colors, re-detect after each placement, undo everything and
break as soon as a winner appears.  Returns (winner, board, made moves). -/
def rp_go (size : ℕ) : List ℕ → ℕ → List ℕ → ℕ → List ℕ → ℕ × List ℕ × List ℕ
  | b, _, made, winner, [] => (winner, b, made)
  | b, color, made, _, p :: rest =>
      let b' := b.set p color
      let made' := made ++ [p]
      let w := detect_five_in_a_row size b'
      if w ≠ EMPTY then (w, undo_all_move b' made', made')
      else rp_go size b' (rp_flip color) made' w rest

/-- `random_policy(opponent)`: run the rollout loop over the shuffled empty
points, then `undo_all_move(made_move_list)` (a second, idempotent undo on
the early-exit path, exactly as in the source).  Returns
(winner, final board array). -/
def random_policy (size : ℕ) (b : List ℕ) (shuffled : List ℕ) (opp : ℕ) :
    ℕ × List ℕ :=
  let w0 := detect_five_in_a_row size b
  let r := rp_go size b opp [] w0 shuffled
  (r.1, undo_all_move r.2.1 r.2.2)

/-! ### Sequences of core operations (for the BORDER invariant) -/

/-- A core board operation: a legality-checked placement
(`play_move_gomoku`), an undo of previously placed points
(`undo_all_move`), or a rollout evaluation (`random_policy`, whose
shuffled list is a permutation of the current empty points). -/
inductive CoreOp where
  | place (point color : ℕ)
  | undo (points : List ℕ)
  | rollout (shuffled : List ℕ) (opp : ℕ)
  deriving DecidableEq

/-- Apply one core operation to (board array, current player). -/
def apply_op (size : ℕ) : CoreOp → List ℕ × ℕ → List ℕ × ℕ
  | .place p c, (b, cur) => ((play_move_gomoku b cur p c).2.1, (play_move_gomoku b cur p c).2.2)
  | .undo ps, (b, cur) => (undo_all_move b ps, cur)
  | .rollout sh opp, (b, cur) => ((random_policy size b sh opp).2, cur)

/-- Validity of one operation in a state: placements carry a real stone
color (the `assert is_black_white` of the source), undos only target
previously placed (stone-carrying) points, rollouts get a permutation of
the current empty points (the shuffled `get_empty_points()` list). -/
def valid_op : CoreOp → List ℕ × ℕ → Bool
  | .place _ c, _ => decide (is_black_white c)
  | .undo ps, (b, _) => ps.all (fun p => decide (is_black_white (get_color b p)))
  | .rollout sh _, (b, _) => decide (sh.Perm (where1d b EMPTY))

/-- Validity of a whole operation sequence, step by step. -/
def valid_op_seq (size : ℕ) : List CoreOp → List ℕ × ℕ → Bool
  | [], _ => true
  | op :: ops, s => valid_op op s && valid_op_seq size ops (apply_op size op s)

/-- Run a sequence of core operations. -/
def run_ops (size : ℕ) (ops : List CoreOp) (s : List ℕ × ℕ) : List ℕ × ℕ :=
  ops.foldl (fun st op => apply_op size op st) s

/-! ### Terminal check of `gomoku4/simple_board.py` -/

/-- Board reads at signed positions, as used by the direction walks of
`_point_direction_check_connect_gomoko`.  On the valid padded boards the
theorems quantify over, every position actually read is a non-negative
in-range index or falls in padding that reads BORDER, which is also what
numpy's negative-index wrap-around returns there. -/
def get_color_z (b : List ℕ) (p : ℤ) : ℕ :=
  if 0 ≤ p then b.getD p.toNat BORDER else BORDER

/-- One `while True` counting loop of
`_point_direction_check_connect_gomoko`: step by `d` while the color
matches, incrementing `count` and breaking as soon as `count == 5`.
`none` is fuel exhaustion, which never happens for the fuel used below. -/
def walk_count (b : List ℕ) (color : ℕ) (d : ℤ) : ℕ → ℤ → ℕ → Option ℕ
  | 0, _, _ => none
  | fuel + 1, p, count =>
      let p' := p + d
      if get_color_z b p' = color then
        (if count + 1 = 5 then some 5 else walk_count b color d fuel p' (count + 1))
      else some count

/-- `_point_direction_check_connect_gomoko(point, shift)`: count in the
direction and its opposite; `assert count <= 5`; return `count == 5`.
`none` is the AssertionError (count above 5). -/
def point_direction_check_connect_gomoko (b : List ℕ) (point : ℕ) (shift : ℤ) :
    Option Bool :=
  let color := get_color b point
  match walk_count b color shift (b.length + 1) (point : ℤ) 1 with
  | none => none
  | some c1 =>
      match walk_count b color (-shift) (b.length + 1) (point : ℤ) c1 with
      | none => none
      | some c2 => if c2 ≤ 5 then some (decide (c2 = 5)) else none

/-- `point_check_game_end_gomoku(point)`: try the four direction strides
`+1`, `+NS`, `+NS+1`, `+NS-1` in order; `none` propagates an
AssertionError from a direction check. -/
def point_check_game_end_gomoku (b : List ℕ) (ns : ℕ) (point : ℕ) : Option Bool :=
  match point_direction_check_connect_gomoko b point 1 with
  | none => none
  | some true => some true
  | some false =>
      match point_direction_check_connect_gomoko b point (ns : ℤ) with
      | none => none
      | some true => some true
      | some false =>
          match point_direction_check_connect_gomoko b point ((ns : ℤ) + 1) with
          | none => none
          | some true => some true
          | some false =>
              match point_direction_check_connect_gomoko b point ((ns : ℤ) - 1) with
              | none => none
              | some true => some true
              | some false => some false

/-- One `for point in points: if point_check_game_end_gomoku(point): return`
loop of `check_game_end_gomoku`.  `some (some w)` : returned `(True, w)`;
`some none` : fell through; `none` : AssertionError. -/
def scan_points_for (b : List ℕ) (ns winner : ℕ) : List ℕ → Option (Option ℕ)
  | [] => some none
  | p :: rest =>
      match point_check_game_end_gomoku b ns p with
      | none => none
      | some true => some (some winner)
      | some false => scan_points_for b ns winner rest

/-- `check_game_end_gomoku()`: scan all WHITE points, then all BLACK
points; report the first color whose point completes a five. -/
def check_game_end_gomoku (b : List ℕ) (ns : ℕ) : Option (Bool × Option ℕ) :=
  match scan_points_for b ns WHITE (where1d b WHITE) with
  | none => none
  | some (some c) => some (true, some c)
  | some none =>
      match scan_points_for b ns BLACK (where1d b BLACK) with
      | none => none
      | some (some c) => some (true, some c)
      | some none => some (false, none)

/-- The maximal-run predicate used to reason about the direction walks:
exactly the cells `p + d, …, p + m·d` match `color` and the next one does
not. -/
def run_matches (b : List ℕ) (color : ℕ) (d : ℤ) (p : ℤ) (m : ℕ) : Prop :=
  (∀ j : ℕ, 1 ≤ j → j ≤ m → get_color_z b (p + j * d) = color) ∧
    get_color_z b (p + (m + 1) * d) ≠ color

/-! ### Pattern classifier (`check_pattern` / `get_pattern_moves`) -/

/-- The head of `check_pattern`: `for i in range(0,4): if have in
patternList[i]: add the offset points to moveSet[i]; break`.  `i` is the
index of the first table tried; the recursion walks the remaining
tables. -/
def tier_scan (nsv : ℕ) (point : ℤ) (hv : String) (dx dy : ℤ) :
    ℕ → List (List (String × List ℕ)) → List (Finset ℤ) → List (Finset ℤ)
  | _, [], ms => ms
  | i, t :: ts, ms =>
      match t.lookup hv with
      | some dists =>
          ms.set i ((ms.getD i ∅) ∪
            (dists.map (fun dis =>
              point - dx * ((dis : ℤ) + 1) - dy * (nsv : ℤ) * ((dis : ℤ) + 1))).toFinset)
      | none => tier_scan nsv point hv dx dy (i + 1) ts ms

/-- `check_pattern(point, have, dx, dy, moveSet, patternList, color, flag)`
(the `flag` is never set in the source): scan the built string `hv`
against the tier tables, then extend the walk unless the point left the
array or the string reached length 9.  The fuel is `10 - hv.length` at
call sites, enough for the length-9 stop. -/
def check_pattern (b : List ℕ) (color nsv : ℕ) (dx dy : ℤ)
    (pl : List (List (String × List ℕ))) :
    ℕ → ℤ → String → List (Finset ℤ) → List (Finset ℤ)
  | 0, _, _, ms => ms
  | fuel + 1, point, hv, ms =>
      let ms' := tier_scan nsv point hv dx dy 0 pl ms
      if ¬ (0 ≤ point ∧ point < (b.length : ℤ)) ∨ hv.length = 9 then ms'
      else
        let piece := get_color_z b point
        let ch : Char :=
          if piece = EMPTY then '.'
          else if piece = color then 'x'
          else if piece = BORDER then 'B' else 'o'
        check_pattern b color nsv dx dy pl fuel (point + dx + dy * (nsv : ℤ))
          (hv.push ch) ms'

/-- The `patternList` of `get_pattern_moves`: win, block-win, make-four,
block-open-four tiers (offset sets written as lists). -/
def pattern_list_gpm : List (List (String × List ℕ)) :=
  [[("xxxx.", [0]), ("xxx.x", [1]), ("xx.xx", [2]), ("x.xxx", [3]), (".xxxx", [4])],
   [("oooo.", [0]), ("ooo.o", [1]), ("oo.oo", [2]), ("o.ooo", [3]), (".oooo", [4])],
   [(".xxx..", [1]), ("..xxx.", [4]), (".xx.x.", [2]), (".x.xx.", [3])],
   [(".ooo..", [1, 5]), ("..ooo.", [0, 4]), (".oo.o.", [0, 2, 5]), (".o.oo.", [0, 3, 5]),
    ("B.ooo..", [0]), ("..ooo.B", [6]), ("x.ooo..", [0]), ("..ooo.x", [6])]]

/-- `get_pattern_moves()`: run `check_pattern` from every array point in
all four directions, then return the first non-empty tier. -/
def get_pattern_moves (b : List ℕ) (color nsv : ℕ) : Option (ℕ × Finset ℤ) :=
  let dirx : List ℤ := [1, 0, 1, -1]
  let diry : List ℤ := [0, 1, 1, 1]
  let ms0 : List (Finset ℤ) := [∅, ∅, ∅, ∅]
  let ms := (List.range b.length).foldl (fun ms p =>
    (List.range 4).foldl (fun ms dir =>
      check_pattern b color nsv (dirx.getD dir 0) (diry.getD dir 0)
        pattern_list_gpm 10 (p : ℤ) "" ms) ms) ms0
  if ms.getD 0 ∅ ≠ ∅ then some (0, ms.getD 0 ∅)
  else if ms.getD 1 ∅ ≠ ∅ then some (1, ms.getD 1 ∅)
  else if ms.getD 2 ∅ ≠ ∅ then some (2, ms.getD 2 ∅)
  else if ms.getD 3 ∅ ≠ ∅ then some (3, ms.getD 3 ∅)
  else none

/-! ### The `GoBoard` constructor and its optional line lists -/

/-- The fields of `gomoku/board.py`'s `GoBoard` relevant to terminal
detection.  `rcd` models the `rows`/`cols`/`diags` attributes, which
`calculate_rows_cols_diags` only creates for `size ≥ 5`. -/
structure GoBoardState where
  size : ℕ
  board : List ℕ
  current_player : ℕ
  rcd : Option (List (List ℕ) × List (List ℕ) × List (List ℕ))
  deriving DecidableEq, Repr

/-- `calculate_rows_cols_diags()`: early return for `size < 5`; otherwise
compute the three lists and check the source's three `assert`s on their
lengths (`none` = AssertionError). -/
def calculate_rows_cols_diags (g : GoBoardState) : Option GoBoardState :=
  if g.size < 5 then some g
  else
    let rows := rows_list g.size
    let cols := cols_list g.size
    let diags := diags_of g.size g.board
    if rows.length = g.size ∧ cols.length = g.size ∧
        diags.length = (2 * (g.size - 5) + 1) * 2 then
      some { g with rcd := some (rows, cols, diags) }
    else none

/-- `reset(size)`: fresh fields, fresh board, then
`calculate_rows_cols_diags`. -/
def reset_full (size : ℕ) : Option GoBoardState :=
  calculate_rows_cols_diags
    { size := size, board := reset_board size, current_player := BLACK, rcd := none }

/-- `GoBoard.__init__(size)`: `assert 2 <= size <= MAXSIZE`, `reset`, then
`calculate_rows_cols_diags` once more. -/
def mk_go_board (size : ℕ) : Option GoBoardState :=
  if 2 ≤ size ∧ size ≤ MAXSIZE then (reset_full size).bind calculate_rows_cols_diags
  else none

/-- `detect_five_in_a_row()` on a `GoBoardState`: reading the
`rows`/`cols`/`diags` attributes fails (`none`, an AttributeError) when
they were never created. -/
def detect_five_opt (g : GoBoardState) : Option ℕ :=
  g.rcd.map (fun x => detect_lists g.board x.1 x.2.1 x.2.2)



/-- A 7×7 board (NS = 8) with a BLACK run of six stones on row 1,
columns 1..6 (points 9..14): the failing input of C7. -/
def crash_board : List ℕ :=
  ((((((reset_board 7).set 9 BLACK).set 10 BLACK).set 11 BLACK).set 12 BLACK).set
    13 BLACK).set 14 BLACK



/-- A full board (every interior cell BLACK) of size 5, used to exercise
the operation-sequence invariant on a concrete input. -/
def full_black_board : List ℕ :=
  (List.range (maxpoint 5)).map (fun p => if interior 5 p then BLACK else BORDER)



/-- Five consecutive cells of color `c` along the point list `l`
(an index window of width 5). -/
def five_window (b : List ℕ) (l : List ℕ) (c : ℕ) : Prop :=
  ∃ i, i + 5 ≤ l.length ∧ ∀ k, k < 5 → get_color b (l.getD (i + k) 0) = c

/-- The full scan order of `detect_five_in_a_row`: rows, then columns,
then diagonals. -/
def all_line_lists (size : ℕ) : List (List ℕ) :=
  rows_list size ++ cols_list size ++ diags_list size



/-- A size-5 board with a BLACK five on row 1 (points 7..11): a concrete
winning position. -/
def black_row_board : List ℕ :=
  (((((reset_board 5).set 7 BLACK).set 8 BLACK).set 9 BLACK).set 10 BLACK).set
    11 BLACK



/-- The four direction strides checked by `point_check_game_end_gomoku`:
`+1`, `+NS`, `+NS+1`, `+NS-1`. -/
def gomoku_dirs (ns : ℕ) : List ℤ := [1, (ns : ℤ), (ns : ℤ) + 1, (ns : ℤ) - 1]

/-- The stone at `p` has at least `n` consecutive same-colored stones
through it along direction `d` (the maximal runs on the two sides sum,
with `p` itself, to at least `n`). -/
def dir_run_ge (b : List ℕ) (color : ℕ) (d : ℤ) (p : ℕ) (n : ℕ) : Prop :=
  ∃ m1 m2, run_matches b color d (p : ℤ) m1 ∧ run_matches b color (-d) (p : ℤ) m2 ∧
    n ≤ m1 + m2 + 1

/-- The stone at `p` completes a five in one of the four checked
directions. -/
def stone_sees_five (b : List ℕ) (ns : ℕ) (p : ℕ) : Prop :=
  ∃ d ∈ gomoku_dirs ns, dir_run_ge b (get_color b p) d p 5

/-- A size-5 board holding both a WHITE five (row 1, points 7..11) and a
BLACK five (row 2, points 13..17): the input refuting the claimed
BLACK-before-WHITE scan order. -/
def both_fives_board : List ℕ :=
  ((((((((((reset_board 5).set 7 WHITE).set 8 WHITE).set 9 WHITE).set 10 WHITE).set
    11 WHITE).set 13 BLACK).set 14 BLACK).set 15 BLACK).set 16 BLACK).set 17 BLACK


end Gomoku

namespace Gomoku

/-! ### Basic lemmas about the board array -/

theorem set_range_length (start : ℕ) :
    ∀ (len : ℕ) (b : List ℕ), (set_range b start len).length = b.length := by
  intro len
  induction len generalizing start with
  | zero => intro b; rfl
  | succ k ih =>
      intro b
      simp only [set_range]
      rw [ih]
      exact b.length_set start EMPTY

theorem set_range_getD (d : ℕ) :
    ∀ (len start : ℕ) (b : List ℕ), start + len ≤ b.length →
      ∀ q, (set_range b start len).getD q d =
        if start ≤ q ∧ q < start + len then EMPTY else b.getD q d := by
  intro len
  induction len with
  | zero =>
      intro start b _ q
      simp only [set_range]
      rw [if_neg (by omega)]
  | succ k ih =>
      intro start b hlen q
      simp only [set_range]
      rw [ih (start + 1) (b.set start EMPTY) (by simpa using by omega)]
      by_cases hq : start + 1 ≤ q ∧ q < start + 1 + k
      · have : start ≤ q ∧ q < start + (k + 1) := by omega
        simp [hq, this]
      · simp only [hq, if_false]
        by_cases hq0 : q = start
        · subst hq0
          have hlt : q < b.length := by omega
          have : q ≤ q ∧ q < q + (k + 1) := by omega
          simp [this, List.getD_eq_getElem?_getD, List.getElem?_set_self' , hlt]
        · have : ¬ (start ≤ q ∧ q < start + (k + 1)) := by omega
          simp [this, List.getD_eq_getElem?_getD, List.getElem?_set_ne (by omega : start ≠ q)]

theorem initialize_empty_points_length (size : ℕ) :
    ∀ (L : List ℕ) (b : List ℕ),
      (L.foldl (fun bb r => set_range bb (row_start size r) size) b).length = b.length := by
  intro L
  induction L with
  | nil => intro b; rfl
  | cons r L ih =>
      intro b
      simp only [List.foldl_cons]
      rw [ih, set_range_length]

theorem reset_board_length (size : ℕ) : (reset_board size).length = maxpoint size := by
  unfold reset_board initialize_empty_points
  rw [initialize_empty_points_length, List.length_replicate]

theorem foldl_rows_getD (size d : ℕ) :
    ∀ (L : List ℕ) (b : List ℕ),
      (∀ r ∈ L, row_start size r + size ≤ b.length) →
      ∀ q, (L.foldl (fun bb r => set_range bb (row_start size r) size) b).getD q d =
        if ∃ r ∈ L, row_start size r ≤ q ∧ q < row_start size r + size then EMPTY
        else b.getD q d := by
  intro L
  induction L with
  | nil =>
      intro b _ q
      simp
  | cons r L ih =>
      intro b hb q
      simp only [List.foldl_cons]
      rw [ih _ (fun r' hr' => by
            rw [set_range_length]; exact hb r' (List.mem_cons_of_mem _ hr'))]
      rw [set_range_getD _ _ _ _ (hb r (List.mem_cons_self r L))]
      by_cases h1 : ∃ r' ∈ L, row_start size r' ≤ q ∧ q < row_start size r' + size
      · rw [if_pos h1, if_pos]
        obtain ⟨r', hr', hq⟩ := h1
        exact ⟨r', List.mem_cons_of_mem _ hr', hq⟩
      · rw [if_neg h1]
        by_cases h2 : row_start size r ≤ q ∧ q < row_start size r + size
        · rw [if_pos h2, if_pos ⟨r, List.mem_cons_self r L, h2⟩]
        · rw [if_neg h2, if_neg]
          rintro ⟨r', hr', hq⟩
          rcases List.mem_cons.mp hr' with rfl | hr'
          · exact h2 hq
          · exact h1 ⟨r', hr', hq⟩

theorem row_start_add_le (size : ℕ) (r : ℕ) (hr : 1 ≤ r) (hr2 : r ≤ size) :
    row_start size r + size ≤ maxpoint size := by
  unfold row_start maxpoint NS
  have h1 : r * (size + 1) ≤ size * (size + 1) := Nat.mul_le_mul_right _ hr2
  nlinarith

theorem interior_iff_mem_row (size q : ℕ) :
    interior size q ↔
      ∃ r ∈ List.range' 1 size, row_start size r ≤ q ∧ q < row_start size r + size := by
  constructor
  · rintro ⟨h1, h2, h3, h4⟩
    refine ⟨q / NS size, List.mem_range'_1.mpr ⟨h1, by omega⟩, ?_, ?_⟩
    · have e := Nat.div_add_mod q (NS size)
      unfold row_start
      have : NS size * (q / NS size) = (q / NS size) * NS size := Nat.mul_comm _ _
      omega
    · have e := Nat.div_add_mod q (NS size)
      unfold row_start
      have : NS size * (q / NS size) = (q / NS size) * NS size := Nat.mul_comm _ _
      omega
  · rintro ⟨r, hr, hq1, hq2⟩
    have hr' := List.mem_range'_1.mp hr
    unfold row_start at hq1 hq2
    have hdiv : q / NS size = r := by
      apply Nat.div_eq_of_lt_le
      · unfold NS at hq1 ⊢; omega
      · unfold NS at hq2 ⊢
        have : (r + 1) * (size + 1) = r * (size + 1) + (size + 1) := by ring
        omega
    have e := Nat.div_add_mod q (NS size)
    rw [hdiv] at e
    have hc : NS size * r = r * NS size := Nat.mul_comm _ _
    refine ⟨by omega, by omega, ?_, ?_⟩ <;> unfold NS at * <;> omega

theorem get_color_reset_board (size q : ℕ) :
    get_color (reset_board size) q = if interior size q then EMPTY else BORDER := by
  unfold get_color reset_board initialize_empty_points
  rw [foldl_rows_getD]
  · by_cases h : interior size q
    · rw [if_pos ((interior_iff_mem_row size q).mp h), if_pos h]
    · rw [if_neg (fun hex => h ((interior_iff_mem_row size q).mpr hex)), if_neg h]
      rcases Nat.lt_or_ge q (maxpoint size) with hq | hq
      · rw [List.getD_eq_getElem?_getD, List.getElem?_replicate_of_lt (by simpa using hq)]
        rfl
      · rw [List.getD_eq_getElem?_getD, List.getElem?_eq_none (by simpa using hq)]
        rfl
  · intro r hr
    have hr' := List.mem_range'_1.mp hr
    rw [List.length_replicate]
    exact row_start_add_le size r hr'.1 (by omega)

theorem pt_div (size r c : ℕ) (hc : c ≤ size) : pt size r c / NS size = r := by
  unfold pt
  have h : r * NS size + c = NS size * r + c := by ring
  rw [h, Nat.mul_add_div (by unfold NS; omega)]
  rw [Nat.div_eq_of_lt (by unfold NS; omega)]
  omega

theorem pt_mod (size r c : ℕ) (hc : c ≤ size) : pt size r c % NS size = c := by
  unfold pt
  have h : r * NS size + c = NS size * r + c := by ring
  rw [h, Nat.mul_add_mod, Nat.mod_eq_of_lt (by unfold NS; omega)]

theorem interior_pt (size r c : ℕ) (h1 : 1 ≤ r) (h2 : r ≤ size) (h3 : 1 ≤ c)
    (h4 : c ≤ size) : interior size (pt size r c) := by
  unfold interior
  rw [pt_div size r c (by omega), pt_mod size r c (by omega)]
  exact ⟨h1, h2, h3, h4⟩

/-! ### Single-cell write lemmas -/

theorem getD_set_eq (b : List ℕ) (p v d : ℕ) (h : p < b.length) :
    (b.set p v).getD p d = v := by
  rw [List.getD_eq_getElem?_getD, List.getElem?_set_self', List.getElem?_eq_getElem h]
  rfl

theorem getD_set_ne (b : List ℕ) (p v d q : ℕ) (h : p ≠ q) :
    (b.set p v).getD q d = b.getD q d := by
  rw [List.getD_eq_getElem?_getD, List.getElem?_set_ne h, ← List.getD_eq_getElem?_getD]

theorem set_getD_self (b : List ℕ) (p v d : ℕ) (h : p < b.length)
    (hv : b.getD p d = v) : b.set p v = b := by
  apply List.ext_getElem?
  intro n
  by_cases hn : p = n
  · subst hn
    rw [List.getElem?_set_self', List.getElem?_eq_getElem h]
    rw [List.getD_eq_getElem?_getD, List.getElem?_eq_getElem h] at hv
    simp only [Option.getD_some] at hv
    rw [← hv]
    rfl
  · rw [List.getElem?_set_ne hn]

theorem undo_all_move_length :
    ∀ (ps : List ℕ) (b : List ℕ), (undo_all_move b ps).length = b.length := by
  intro ps
  induction ps with
  | nil => intro b; rfl
  | cons p rest ih =>
      intro b
      show (undo_all_move (b.set p EMPTY) rest).length = b.length
      rw [ih, List.length_set]

theorem undo_all_move_getD (d : ℕ) :
    ∀ (ps : List ℕ) (b : List ℕ) (q : ℕ),
      (undo_all_move b ps).getD q d =
        if q ∈ ps ∧ q < b.length then EMPTY else b.getD q d := by
  intro ps
  induction ps with
  | nil =>
      intro b q
      simp [undo_all_move]
  | cons p rest ih =>
      intro b q
      show (undo_all_move (b.set p EMPTY) rest).getD q d = _
      rw [ih]
      rw [List.length_set]
      by_cases h1 : q ∈ rest ∧ q < b.length
      · rw [if_pos h1, if_pos ⟨List.mem_cons_of_mem _ h1.1, h1.2⟩]
      · rw [if_neg h1]
        by_cases h2 : q = p
        · subst h2
          by_cases h3 : q < b.length
          · rw [getD_set_eq b q EMPTY d h3, if_pos ⟨List.mem_cons_self q rest, h3⟩]
          · rw [List.set_eq_of_length_le (by omega), if_neg (by tauto)]
        · rw [getD_set_ne b p EMPTY d q (fun hh => h2 hh.symm)]
          rw [if_neg]
          rintro ⟨hmem, hlt⟩
          rcases List.mem_cons.mp hmem with rfl | hmem
          · exact h2 rfl
          · exact h1 ⟨hmem, hlt⟩

/-! ### C2, C3, C9 -/

/-- C2: for every on-board point and real stone color, `play_move_gomoku`
(and the gomoku path of `play_move`) returns False and leaves the board
array and `current_player` unchanged when the target cell is not EMPTY
(BORDER cells included); on an EMPTY cell it returns True, writes the
color there, leaves every other cell unchanged, and sets `current_player`
to the opponent of the color argument. -/
theorem claim2_play_move_legality (b : List ℕ) (cur point color : ℕ)
    (l1 l2 : Option ℕ) (_hc : is_black_white color) (hp : point < b.length) :
    (get_color b point ≠ EMPTY →
      play_move_gomoku b cur point color = (false, b, cur) ∧
      play_move ⟨b, cur, l1, l2⟩ point color = (false, ⟨b, cur, l1, l2⟩)) ∧
    (get_color b point = EMPTY →
      (play_move_gomoku b cur point color).1 = true ∧
      get_color (play_move_gomoku b cur point color).2.1 point = color ∧
      (∀ q, q ≠ point → get_color (play_move_gomoku b cur point color).2.1 q = get_color b q) ∧
      (play_move_gomoku b cur point color).2.2 = opponent color ∧
      (play_move ⟨b, cur, l1, l2⟩ point color).1 = true ∧
      (play_move ⟨b, cur, l1, l2⟩ point color).2.board = b.set point color ∧
      (play_move ⟨b, cur, l1, l2⟩ point color).2.current_player = opponent color) := by
  constructor
  · intro hne
    unfold play_move_gomoku play_move
    rw [if_pos hne, if_pos hne]
    exact ⟨rfl, rfl⟩
  · intro he
    unfold play_move_gomoku play_move
    rw [if_neg (by rw [he]; exact fun h => h rfl), if_neg (by rw [he]; exact fun h => h rfl)]
    refine ⟨rfl, ?_, ?_, rfl, rfl, rfl, rfl⟩
    · exact getD_set_eq b point color BORDER hp
    · intro q hq
      exact getD_set_ne b point color BORDER q (fun h => hq h.symm)

theorem claim2_witness :
    play_move_gomoku (reset_board 5) BLACK 0 WHITE = (false, reset_board 5, BLACK) ∧
    (play_move_gomoku (reset_board 5) BLACK 7 BLACK).2.2 = opponent BLACK := by
  constructor
  · exact ((claim2_play_move_legality (reset_board 5) BLACK 0 WHITE none none
      (by decide) (by decide)).1 (by decide)).1
  · exact (((claim2_play_move_legality (reset_board 5) BLACK 7 BLACK none none
      (by decide) (by decide)).2 (by decide)).2.2.2.1)

/-- C3: placing either stone color on an EMPTY point via `play_move` and
then resetting that point to EMPTY via `undo_all_move` restores the board
array cell for cell. -/
theorem claim3_place_undo_roundtrip (s : GoSt) (point color : ℕ)
    (hp : point < s.board.length) (he : get_color s.board point = EMPTY)
    (_hc : is_black_white color) :
    undo_all_move (play_move s point color).2.board [point] = s.board := by
  unfold play_move
  rw [if_neg (by rw [he]; exact fun h => h rfl)]
  show undo_all_move (s.board.set point color) [point] = s.board
  show (s.board.set point color).set point EMPTY = s.board
  rw [List.set_set]
  exact set_getD_self s.board point EMPTY BORDER hp he

theorem claim3_witness :
    7 < (reset_board 5).length ∧
    undo_all_move (play_move ⟨reset_board 5, BLACK, none, none⟩ 7 WHITE).2.board [7] =
      reset_board 5 := by
  refine ⟨by decide, ?_⟩
  exact claim3_place_undo_roundtrip ⟨reset_board 5, BLACK, none, none⟩ 7 WHITE
    (by decide) (by decide) (by decide)

/-- C9 counterexample: at the accepted size 2, the board array built by
`reset` has length 13, not `(size+1)·(size+2) + size = 14`. -/
theorem claim9_counterexample : (reset_board 2).length ≠ (2 + 1) * (2 + 2) + 2 := by
  decide

/-- C9 (amended): for every size, the flat cell array constructed by
`reset` has length `(size+1)·(size+2) + 1` (the source's
`size·size + 3·(size+1)`), one less than the claimed
`(size+1)·(size+2) + size` at `size = 2` and `size - 1` less in
general. -/
theorem claim9_amended_length (size : ℕ) :
    (reset_board size).length = (size + 1) * (size + 2) + 1 := by
  rw [reset_board_length]
  unfold maxpoint
  ring

/-! ### C6: the classifier's scan step -/

theorem tier_scan_first_match (nsv : ℕ) (point : ℤ) (hv : String) (dx dy : ℤ) :
    ∀ (tables : List (List (String × List ℕ))) (start i : ℕ)
      (ms : List (Finset ℤ)) (dists : List ℕ) (hi : i < tables.length),
      (tables.get ⟨i, hi⟩).lookup hv = some dists →
      (∀ j (hj : j < i), (tables.get ⟨j, Nat.lt_trans hj hi⟩).lookup hv = none) →
      tier_scan nsv point hv dx dy start tables ms =
        ms.set (start + i) ((ms.getD (start + i) ∅) ∪
          (dists.map (fun dis =>
            point - dx * ((dis : ℤ) + 1) - dy * (nsv : ℤ) * ((dis : ℤ) + 1))).toFinset) := by
  intro tables
  induction tables with
  | nil =>
      intro start i ms dists hi
      exact absurd hi (by simp)
  | cons t ts ih =>
      intro start i ms dists hi hfound hbefore
      cases i with
      | zero =>
          have ht : t.lookup hv = some dists := hfound
          show tier_scan nsv point hv dx dy start (t :: ts) ms = _
          unfold tier_scan
          rw [ht]
          simp
      | succ i' =>
          have ht : t.lookup hv = none := hbefore 0 (Nat.succ_pos i')
          show tier_scan nsv point hv dx dy start (t :: ts) ms = _
          unfold tier_scan
          rw [ht]
          have hi' : i' < ts.length := by simpa using Nat.lt_of_succ_lt_succ hi
          have heq := ih (start + 1) i' ms dists hi' hfound
            (fun j hj => hbefore (j + 1) (Nat.succ_lt_succ hj))
          have e : start + 1 + i' = start + (i' + 1) := by omega
          rw [e] at heq
          exact heq

/-- C6: in the scan step of `check_pattern`, the tier tables are tried in
order and exactly the first tier whose table contains the built string
receives moves; for every offset `dis` the template lists, the added point
is `anchor - dx·(dis+1) - dy·NS·(dis+1)`; every other tier's set is left
unchanged (the result only rewrites index `i`). -/
theorem claim6_tier_scan_first_match (nsv : ℕ) (point : ℤ) (hv : String)
    (dx dy : ℤ) (pl : List (List (String × List ℕ))) (ms : List (Finset ℤ))
    (i : ℕ) (dists : List ℕ) (hi : i < pl.length)
    (hfound : (pl.get ⟨i, hi⟩).lookup hv = some dists)
    (hbefore : ∀ j (hj : j < i), (pl.get ⟨j, Nat.lt_trans hj hi⟩).lookup hv = none) :
    tier_scan nsv point hv dx dy 0 pl ms =
      ms.set i ((ms.getD i ∅) ∪
        (dists.map (fun dis =>
          point - dx * ((dis : ℤ) + 1) - dy * (nsv : ℤ) * ((dis : ℤ) + 1))).toFinset) := by
  have := tier_scan_first_match nsv point hv dx dy pl 0 i ms dists hi hfound hbefore
  simpa using this

theorem claim6_witness :
    (pattern_list_gpm.get ⟨1, by decide⟩).lookup "oooo." = some [0] ∧
    tier_scan 6 20 "oooo." 1 0 0 pattern_list_gpm [∅, ∅, ∅, ∅] =
      [∅, ∅, ∅, ∅].set 1 (([∅, ∅, ∅, ∅].getD 1 ∅) ∪
        (([0] : List ℕ).map (fun dis =>
          (20 : ℤ) - 1 * ((dis : ℤ) + 1) - 0 * (6 : ℤ) * ((dis : ℤ) + 1))).toFinset) := by
  constructor
  · rfl
  · exact claim6_tier_scan_first_match 6 20 "oooo." 1 0 pattern_list_gpm
      [∅, ∅, ∅, ∅] 1 [0] (by decide) rfl
      (fun j hj => by
        have hj0 : j = 0 := by omega
        subst hj0
        rfl)

/-! ### C7: the direction check fails its own assertion on runs of six -/

/-- C7: on a board with an unbroken BLACK run of six, the stone at row 1
column 2 (point 10) has five consecutive same-colored stones through it in
direction +1, yet `_point_direction_check_connect_gomoko` does not return
true: its forward count caps at 5 and the backward neighbor pushes the
count to 6, so the function dies on its own `assert count <= 5`
(`none` here).  At the left end of the run (point 9) the same call still
returns true. -/
theorem claim7_assert_failure :
    get_color crash_board 10 = BLACK ∧
    (∀ k ∈ Finset.range 5, get_color crash_board (10 + k) = BLACK) ∧
    point_direction_check_connect_gomoko crash_board 10 1 = none ∧
    point_direction_check_connect_gomoko crash_board 9 1 = some true := by
  decide

/-! ### C4: the rollout restores the board -/

theorem list_eq_of_getD (b b' : List ℕ) (hlen : b.length = b'.length)
    (h : ∀ q, b.getD q BORDER = b'.getD q BORDER) : b = b' := by
  apply List.ext_getElem hlen
  intro i h1 h2
  have hq := h i
  rw [List.getD_eq_getElem?_getD, List.getElem?_eq_getElem h1,
    List.getD_eq_getElem?_getD, List.getElem?_eq_getElem h2] at hq
  simpa using hq

theorem undo_restores (b b0 : List ℕ) (made : List ℕ)
    (hlen : b.length = b0.length)
    (hframe : ∀ q, q ∉ made → b.getD q BORDER = b0.getD q BORDER)
    (hmade : ∀ p ∈ made, p < b0.length ∧ b0.getD p BORDER = EMPTY) :
    undo_all_move b made = b0 := by
  apply list_eq_of_getD
  · rw [undo_all_move_length]; exact hlen
  · intro q
    rw [undo_all_move_getD]
    by_cases hq : q ∈ made ∧ q < b.length
    · rw [if_pos hq]
      exact (hmade q hq.1).2.symm
    · rw [if_neg hq]
      by_cases hm : q ∈ made
      · exact absurd ⟨hm, by have := (hmade q hm).1; omega⟩ hq
      · exact hframe q hm

theorem rp_go_restore (size : ℕ) (b0 : List ℕ) :
    ∀ (pts : List ℕ) (b : List ℕ) (color : ℕ) (made : List ℕ) (winner : ℕ),
      b.length = b0.length →
      (∀ q, q ∉ made → b.getD q BORDER = b0.getD q BORDER) →
      (∀ p ∈ made, p < b0.length ∧ b0.getD p BORDER = EMPTY) →
      (∀ p ∈ pts, p < b0.length ∧ b0.getD p BORDER = EMPTY) →
      undo_all_move (rp_go size b color made winner pts).2.1
        (rp_go size b color made winner pts).2.2 = b0 := by
  intro pts
  induction pts with
  | nil =>
      intro b color made winner hlen hframe hmade _
      exact undo_restores b b0 made hlen hframe hmade
  | cons p rest ih =>
      intro b color made winner hlen hframe hmade hpts
      show undo_all_move
          (rp_go size b color made winner (p :: rest)).2.1
          (rp_go size b color made winner (p :: rest)).2.2 = b0
      unfold rp_go
      have hlen' : (b.set p color).length = b0.length := by
        rw [List.length_set]; exact hlen
      have hframe' : ∀ q, q ∉ made ++ [p] →
          (b.set p color).getD q BORDER = b0.getD q BORDER := by
        intro q hq
        rw [List.mem_append] at hq
        push_neg at hq
        have hqp : p ≠ q := by
          intro h
          exact hq.2 (by simp [h])
        rw [getD_set_ne b p color BORDER q hqp]
        exact hframe q hq.1
      have hmade' : ∀ x ∈ made ++ [p], x < b0.length ∧ b0.getD x BORDER = EMPTY := by
        intro x hx
        rw [List.mem_append] at hx
        rcases hx with hx | hx
        · exact hmade x hx
        · simp at hx
          rw [hx]
          exact hpts p (List.mem_cons_self p rest)
      by_cases hw : detect_five_in_a_row size (b.set p color) ≠ EMPTY
      · rw [if_pos hw]
        show undo_all_move (undo_all_move (b.set p color) (made ++ [p])) (made ++ [p]) = b0
        rw [undo_restores (b.set p color) b0 (made ++ [p]) hlen' hframe' hmade']
        exact undo_restores b0 b0 (made ++ [p]) rfl (fun q _ => rfl) hmade'
      · rw [if_neg hw]
        exact ih (b.set p color) (rp_flip color) (made ++ [p])
          (detect_five_in_a_row size (b.set p color)) hlen' hframe' hmade'
          (fun x hx => hpts x (List.mem_cons_of_mem _ hx))

theorem random_policy_preserves (size : ℕ) (b : List ℕ) (shuffled : List ℕ)
    (opp : ℕ) (h : ∀ p ∈ shuffled, p < b.length ∧ b.getD p BORDER = EMPTY) :
    (random_policy size b shuffled opp).2 = b := by
  unfold random_policy
  exact rp_go_restore size b shuffled b opp [] (detect_five_in_a_row size b)
    rfl (fun q _ => rfl) (by simp) h

theorem mem_where1d (b : List ℕ) (c p : ℕ) :
    p ∈ where1d b c ↔ p < b.length ∧ get_color b p = c := by
  unfold where1d
  rw [List.mem_filter, List.mem_range]
  simp

/-- C4: on a board of size at least 5, one call to `random_policy` — whose
shuffled list is a permutation of the current empty points — returns the
board array exactly as it was before the call, whether or not the rollout
found a winner or exhausted the empty points (so the number of EMPTY cells
and every non-empty cell are unchanged). -/
theorem claim4_random_policy_preserves_board (size : ℕ) (_hsize : 5 ≤ size)
    (b : List ℕ) (shuffled : List ℕ) (opp : ℕ)
    (hperm : shuffled.Perm (where1d b EMPTY)) :
    (random_policy size b shuffled opp).2 = b := by
  apply random_policy_preserves
  intro p hp
  have : p ∈ where1d b EMPTY := hperm.mem_iff.mp hp
  exact (mem_where1d b EMPTY p).mp this

theorem claim4_witness :
    (5 : ℕ) ≤ 5 ∧
    (random_policy 5 (reset_board 5) (where1d (reset_board 5) EMPTY) WHITE).2 =
      reset_board 5 :=
  ⟨by decide,
    claim4_random_policy_preserves_board 5 (by decide) (reset_board 5)
      (where1d (reset_board 5) EMPTY) WHITE (List.Perm.refl _)⟩

/-! ### C8: BORDER cells are never mutated -/

theorem apply_op_border (size : ℕ) (op : CoreOp) (s : List ℕ × ℕ)
    (hv : valid_op op s = true) (q : ℕ) (hq : get_color s.1 q = BORDER) :
    get_color (apply_op size op s).1 q = BORDER := by
  obtain ⟨b, cur⟩ := s
  cases op with
  | place p c =>
      show get_color (play_move_gomoku b cur p c).2.1 q = BORDER
      unfold play_move_gomoku
      by_cases he : get_color b p ≠ EMPTY
      · rw [if_pos he]
        exact hq
      · rw [if_neg he]
        push_neg at he
        have hpq : p ≠ q := by
          intro h
          rw [h, hq] at he
          exact absurd he (by decide)
        show get_color (b.set p c) q = BORDER
        unfold get_color
        rw [getD_set_ne b p c BORDER q hpq]
        exact hq
  | undo ps =>
      show get_color (undo_all_move b ps) q = BORDER
      have hall : ∀ p ∈ ps, is_black_white (get_color b p) := by
        intro p hp
        have := List.all_eq_true.mp hv p hp
        exact of_decide_eq_true this
      have hqps : q ∉ ps := by
        intro hmem
        have := hall q hmem
        rw [hq] at this
        exact absurd this (by decide)
      unfold get_color
      rw [undo_all_move_getD, if_neg (fun h => hqps h.1)]
      exact hq
  | rollout sh opp =>
      show get_color (random_policy size b sh opp).2 q = BORDER
      have hperm : sh.Perm (where1d b EMPTY) := of_decide_eq_true hv
      rw [random_policy_preserves size b sh opp
        (fun p hp => (mem_where1d b EMPTY p).mp (hperm.mem_iff.mp hp))]
      exact hq

/-- C8: along any sequence of legality-checked placements, undos of
previously placed (stone-carrying) points, and rollout evaluations whose
shuffled list permutes the current empty points, every cell that holds
BORDER keeps holding BORDER. -/
theorem claim8_border_invariant (size : ℕ) (_hsize : 5 ≤ size) :
    ∀ (ops : List CoreOp) (s : List ℕ × ℕ), valid_op_seq size ops s = true →
      ∀ q, get_color s.1 q = BORDER → get_color (run_ops size ops s).1 q = BORDER := by
  intro ops
  induction ops with
  | nil =>
      intro s _ q hq
      exact hq
  | cons op ops ih =>
      intro s hvs q hq
      have hsplit := Bool.and_eq_true_iff.mp hvs
      show get_color (run_ops size ops (apply_op size op s)).1 q = BORDER
      exact ih (apply_op size op s) hsplit.2 q
        (apply_op_border size op s hsplit.1 q hq)

theorem claim8_witness :
    valid_op_seq 5 [CoreOp.rollout [] WHITE, CoreOp.undo [7], CoreOp.place 7 WHITE]
      (full_black_board, BLACK) = true ∧
    get_color full_black_board 0 = BORDER ∧
    get_color (run_ops 5 [CoreOp.rollout [] WHITE, CoreOp.undo [7], CoreOp.place 7 WHITE]
      (full_black_board, BLACK)).1 0 = BORDER := by
  refine ⟨by decide, by decide, ?_⟩
  exact claim8_border_invariant 5 (by decide)
    [CoreOp.rollout [] WHITE, CoreOp.undo [7], CoreOp.place 7 WHITE]
    (full_black_board, BLACK) (by decide) 0 (by decide)

/-! ### C1 part A: what the run-length scanner detects -/

theorem has_five_scan_sound (b : List ℕ) :
    ∀ (l : List ℕ) (prev k c : ℕ), has_five_scan b prev k l = c → c ≠ EMPTY →
      five_window b l c ∨
        (c = prev ∧ 5 - k ≤ l.length ∧
          ∀ j, j < 5 - k → get_color b (l.getD j 0) = prev) := by
  intro l
  induction l with
  | nil =>
      intro prev k c h hc
      subst h
      exact absurd rfl hc
  | cons s rest ih =>
      intro prev k c h hc
      simp only [has_five_scan] at h
      by_cases hcx : get_color b s = prev
      · rw [if_pos hcx, if_pos hcx] at h
        by_cases hret : k + 1 = 5 ∧ prev ≠ EMPTY
        · rw [if_pos hret] at h
          subst h
          right
          refine ⟨rfl, ?_, ?_⟩
          · simp only [List.length_cons]
            omega
          · intro j hj
            have hj0 : j = 0 := by omega
            subst hj0
            rw [List.getD_cons_zero]
            exact hcx
        · rw [if_neg hret] at h
          rcases ih prev (k + 1) c h hc with hw | ⟨hcp, hlen, htake⟩
          · left
            obtain ⟨i, hi, hcell⟩ := hw
            exact ⟨i + 1, by simp only [List.length_cons]; omega,
              fun kk hkk => by
                have : i + 1 + kk = (i + kk) + 1 := by omega
                rw [this, List.getD_cons_succ]
                exact hcell kk hkk⟩
          · right
            refine ⟨hcp, by simp only [List.length_cons]; omega, ?_⟩
            intro j hj
            cases j with
            | zero => rw [List.getD_cons_zero]; exact hcx
            | succ j' =>
                rw [List.getD_cons_succ]
                exact htake j' (by omega)
      · rw [if_neg hcx, if_neg hcx] at h
        rw [if_neg (by
          rintro ⟨h5, -⟩
          exact absurd h5 (by omega))] at h
        rcases ih (get_color b s) 1 c h hc with hw | ⟨hcp, hlen, htake⟩
        · left
          obtain ⟨i, hi, hcell⟩ := hw
          exact ⟨i + 1, by simp only [List.length_cons]; omega,
            fun kk hkk => by
              have : i + 1 + kk = (i + kk) + 1 := by omega
              rw [this, List.getD_cons_succ]
              exact hcell kk hkk⟩
        · left
          refine ⟨0, by simp only [List.length_cons]; omega, ?_⟩
          intro kk hkk
          cases kk with
          | zero => rw [Nat.zero_add, List.getD_cons_zero]; rw [hcp]
          | succ k' =>
              have : 0 + (k' + 1) = k' + 1 := by omega
              rw [this, List.getD_cons_succ]
              rw [hcp]
              exact htake k' (by omega)

theorem has_five_scan_run (b : List ℕ) :
    ∀ (l : List ℕ) (prev k : ℕ), prev ≠ EMPTY → 1 ≤ k → k ≤ 4 →
      5 - k ≤ l.length → (∀ j, j < 5 - k → get_color b (l.getD j 0) = prev) →
      has_five_scan b prev k l ≠ EMPTY := by
  intro l
  induction l with
  | nil =>
      intro prev k _ _ hk4 hlen _
      simp only [List.length_nil] at hlen
      omega
  | cons s rest ih =>
      intro prev k hprev hk1 hk4 hlen htake
      have hs : get_color b s = prev := by
        have := htake 0 (by omega)
        rwa [List.getD_cons_zero] at this
      simp only [has_five_scan]
      rw [if_pos hs, if_pos hs]
      by_cases hret : k + 1 = 5 ∧ prev ≠ EMPTY
      · rw [if_pos hret]
        exact hprev
      · rw [if_neg hret]
        have hk3 : k ≤ 3 := by
          rcases Nat.lt_or_ge k 4 with h | h
          · omega
          · exact absurd ⟨by omega, hprev⟩ hret
        apply ih prev (k + 1) hprev (by omega) (by omega)
        · simp only [List.length_cons] at hlen
          omega
        · intro j hj
          have := htake (j + 1) (by omega)
          rwa [List.getD_cons_succ] at this

theorem has_five_scan_window (b : List ℕ) :
    ∀ (l : List ℕ) (prev k c : ℕ), c ≠ EMPTY → (prev = EMPTY ∨ k ≤ 4) →
      five_window b l c → has_five_scan b prev k l ≠ EMPTY := by
  intro l
  induction l with
  | nil =>
      intro prev k c _ _ hw
      obtain ⟨i, hi, -⟩ := hw
      simp only [List.length_nil] at hi
      omega
  | cons s rest ih =>
      intro prev k c hc hinv hw
      obtain ⟨i, hi, hcell⟩ := hw
      simp only [has_five_scan]
      cases i with
      | succ i' =>
          have hw' : five_window b rest c :=
            ⟨i', by simp only [List.length_cons] at hi; omega,
              fun kk hkk => by
                have := hcell kk hkk
                have e : i' + 1 + kk = (i' + kk) + 1 := by omega
                rwa [e, List.getD_cons_succ] at this⟩
          by_cases hcx : get_color b s = prev
          · rw [if_pos hcx, if_pos hcx]
            by_cases hret : k + 1 = 5 ∧ prev ≠ EMPTY
            · rw [if_pos hret]
              exact hret.2
            · rw [if_neg hret]
              apply ih prev (k + 1) c hc _ hw'
              by_cases hpe : prev = EMPTY
              · exact Or.inl hpe
              · right
                rcases hinv with hinv | hinv
                · exact absurd hinv hpe
                · rcases Nat.lt_or_ge (k + 1) 5 with h | h
                  · omega
                  · exact absurd ⟨by omega, hpe⟩ hret
          · rw [if_neg hcx, if_neg hcx,
              if_neg (by rintro ⟨h5, -⟩; exact absurd h5 (by omega))]
            exact ih (get_color b s) 1 c hc (Or.inr (by omega)) hw'
      | zero =>
          have hs : get_color b s = c := by
            have := hcell 0 (by omega)
            rwa [List.getD_cons_zero] at this
          have hrest : ∀ j, j < 4 → get_color b (rest.getD j 0) = c := by
            intro j hj
            have := hcell (j + 1) (by omega)
            rwa [Nat.zero_add, List.getD_cons_succ] at this
          by_cases hcx : get_color b s = prev
          · have hpc : prev = c := by rw [← hcx, hs]
            rw [if_pos hcx, if_pos hcx]
            by_cases hret : k + 1 = 5 ∧ prev ≠ EMPTY
            · rw [if_pos hret]
              exact hret.2
            · rw [if_neg hret]
              have hk4 : k ≤ 3 := by
                rcases hinv with hinv | hinv
                · exact absurd (hinv.symm.trans hpc).symm hc
                · rcases Nat.lt_or_ge k 4 with h | h
                  · omega
                  · exact absurd ⟨by omega, by rw [hpc]; exact hc⟩ hret
              apply has_five_scan_run b rest prev (k + 1)
                (by rw [hpc]; exact hc) (by omega) (by omega)
              · simp only [List.length_cons] at hi
                omega
              · intro j hj
                rw [hpc]
                exact hrest j (by omega)
          · rw [if_neg hcx, if_neg hcx,
              if_neg (by rintro ⟨h5, -⟩; exact absurd h5 (by omega))]
            apply has_five_scan_run b rest (get_color b s) 1
              (by rw [hs]; exact hc) (by omega) (by omega)
            · simp only [List.length_cons] at hi
              omega
            · intro j hj
              rw [hs]
              exact hrest j (by omega)

theorem has_five_in_list_sound (b : List ℕ) (l : List ℕ) (c : ℕ)
    (hlist : ∀ x ∈ l, get_color b x ≠ BORDER)
    (h : has_five_in_list b l = c) (hc : c ≠ EMPTY) : five_window b l c := by
  rcases has_five_scan_sound b l BORDER 1 c h hc with hw | ⟨hcp, hlen, htake⟩
  · exact hw
  · exfalso
    have h0 : get_color b (l.getD 0 0) = BORDER := htake 0 (by omega)
    have hmem : l.getD 0 0 ∈ l := by
      have hlt : 0 < l.length := by omega
      rw [List.getD_eq_getElem?_getD, List.getElem?_eq_getElem hlt]
      exact List.getElem_mem hlt
    exact hlist _ hmem h0

theorem has_five_in_list_window (b : List ℕ) (l : List ℕ) (c : ℕ)
    (hc : c ≠ EMPTY) (hw : five_window b l c) : has_five_in_list b l ≠ EMPTY :=
  has_five_scan_window b l BORDER 1 c hc (Or.inr (by omega)) hw

/-! ### C1 part B: the three scanning loops of `detect_five_in_a_row` -/

theorem scan_line_lists_eq_empty (b : List ℕ) :
    ∀ L : List (List ℕ), scan_line_lists b L = EMPTY ↔
      ∀ l ∈ L, has_five_in_list b l = EMPTY := by
  intro L
  induction L with
  | nil => simp [scan_line_lists]
  | cons l L ih =>
      simp only [scan_line_lists]
      by_cases h : has_five_in_list b l ≠ EMPTY
      · rw [if_pos h]
        constructor
        · intro he
          exact absurd he h
        · intro hall
          exact absurd (hall l (List.mem_cons_self l L)) h
      · rw [if_neg h]
        push_neg at h
        rw [ih]
        constructor
        · intro hall l' hl'
          rcases List.mem_cons.mp hl' with rfl | hl'
          · exact h
          · exact hall l' hl'
        · intro hall l' hl'
          exact hall l' (List.mem_cons_of_mem _ hl')

theorem scan_line_lists_mem (b : List ℕ) :
    ∀ (L : List (List ℕ)) (c : ℕ), scan_line_lists b L = c → c ≠ EMPTY →
      ∃ l ∈ L, has_five_in_list b l = c := by
  intro L
  induction L with
  | nil =>
      intro c h hc
      subst h
      exact absurd rfl hc
  | cons l L ih =>
      intro c h hc
      simp only [scan_line_lists] at h
      by_cases hl : has_five_in_list b l ≠ EMPTY
      · rw [if_pos hl] at h
        exact ⟨l, List.mem_cons_self l L, h⟩
      · rw [if_neg hl] at h
        obtain ⟨l', hl', he⟩ := ih c h hc
        exact ⟨l', List.mem_cons_of_mem _ hl', he⟩

theorem scan_line_lists_append (b : List ℕ) :
    ∀ L1 L2 : List (List ℕ), scan_line_lists b (L1 ++ L2) =
      (if scan_line_lists b L1 ≠ EMPTY then scan_line_lists b L1
       else scan_line_lists b L2) := by
  intro L1
  induction L1 with
  | nil =>
      intro L2
      simp [scan_line_lists]
  | cons l L1 ih =>
      intro L2
      simp only [List.cons_append, scan_line_lists]
      by_cases hl : has_five_in_list b l ≠ EMPTY
      · rw [if_pos hl, if_pos hl, if_pos hl]
      · rw [if_neg hl, if_neg hl]
        exact ih L2

theorem detect_five_eq_scan (size : ℕ) (b : List ℕ) :
    detect_five_in_a_row size b = scan_line_lists b (all_line_lists size) := by
  simp only [detect_five_in_a_row, detect_lists, all_line_lists,
    scan_line_lists_append]
  by_cases h1 : scan_line_lists b (rows_list size) = EMPTY <;>
    by_cases h2 : scan_line_lists b (cols_list size) = EMPTY <;>
    simp [h1, h2]

theorem detect_five_eq_empty (size : ℕ) (b : List ℕ) :
    detect_five_in_a_row size b = EMPTY ↔
      ∀ l ∈ all_line_lists size, has_five_in_list b l = EMPTY := by
  rw [detect_five_eq_scan, scan_line_lists_eq_empty]

theorem detect_five_mem (size : ℕ) (b : List ℕ) (c : ℕ)
    (h : detect_five_in_a_row size b = c) (hc : c ≠ EMPTY) :
    ∃ l ∈ all_line_lists size, has_five_in_list b l = c := by
  rw [detect_five_eq_scan] at h
  exact scan_line_lists_mem b _ c h hc

/-! ### C1 part C: geometry of the precomputed line lists -/

theorem getD_range' (s n step i : ℕ) (h : i < n) :
    (List.range' s n step).getD i 0 = s + step * i := by
  have hlen : i < (List.range' s n step).length := by
    rw [List.length_range']
    exact h
  rw [List.getD_eq_getElem?_getD, List.getElem?_eq_getElem hlen]
  simp [List.getElem_range']

theorem pt_step_se (size r c : ℕ) :
    step_se size (pt size r c) = pt size (r + 1) (c + 1) := by
  unfold step_se pt NS
  ring

theorem pt_step_ne (size r c : ℕ) (hr : 1 ≤ r) :
    step_ne size (pt size r c) = pt size (r - 1) (c + 1) := by
  unfold step_ne pt NS
  obtain ⟨r', rfl⟩ : ∃ r', r = r' + 1 := ⟨r - 1, by omega⟩
  simp only [Nat.add_sub_cancel]
  have : (r' + 1) * (size + 1) = r' * (size + 1) + (size + 1) := by ring
  omega

theorem pt_col_wrap (size r : ℕ) : pt size r (size + 1) = pt size (r + 1) 0 := by
  unfold pt NS
  ring

theorem not_interior_col0 (size r : ℕ) : ¬ interior size (pt size r 0) := by
  intro h
  rw [interior, pt_mod size r 0 (by omega)] at h
  omega

theorem not_interior_row_big (size r c : ℕ) (hr : size < r) (hc : c ≤ size) :
    ¬ interior size (pt size r c) := by
  intro h
  rw [interior, pt_div size r c hc] at h
  omega

theorem reset_not_empty_of_not_interior (size x : ℕ) (h : ¬ interior size x) :
    get_color (reset_board size) x ≠ EMPTY := by
  rw [get_color_reset_board, if_neg h]
  decide

theorem se_seg_cons (size r c len : ℕ) :
    se_seg size r c (len + 1) = pt size r c :: se_seg size (r + 1) (c + 1) len := by
  unfold se_seg
  rw [List.range_succ_eq_map]
  simp only [List.map_cons, List.map_map, Nat.add_zero]
  congr 1
  apply List.map_congr_left
  intro k _
  simp only [Function.comp_apply, Nat.succ_eq_add_one]
  unfold pt NS
  ring

theorem ne_seg_cons (size r c len : ℕ) (_hr : 1 ≤ r) :
    ne_seg size r c (len + 1) = pt size r c :: ne_seg size (r - 1) (c + 1) len := by
  unfold ne_seg
  rw [List.range_succ_eq_map]
  simp only [List.map_cons, List.map_map, Nat.add_zero, Nat.sub_zero]
  congr 1
  apply List.map_congr_left
  intro k _
  simp only [Function.comp_apply]
  have e1 : r - (k + 1) = r - 1 - k := by omega
  have e2 : c + (k + 1) = c + 1 + k := by omega
  rw [e1, e2]

theorem se_seg_length (size r c len : ℕ) : (se_seg size r c len).length = len := by
  unfold se_seg
  rw [List.length_map, List.length_range]

theorem ne_seg_length (size r c len : ℕ) : (ne_seg size r c len).length = len := by
  unfold ne_seg
  rw [List.length_map, List.length_range]

theorem se_seg_getD (size r c len k : ℕ) (h : k < len) :
    (se_seg size r c len).getD k 0 = pt size (r + k) (c + k) := by
  unfold se_seg
  have hlen : k < ((List.range len).map (fun k => pt size (r + k) (c + k))).length := by
    rw [List.length_map, List.length_range]
    exact h
  rw [List.getD_eq_getElem?_getD, List.getElem?_eq_getElem hlen]
  simp

theorem ne_seg_getD (size r c len k : ℕ) (h : k < len) :
    (ne_seg size r c len).getD k 0 = pt size (r - k) (c + k) := by
  unfold ne_seg
  have hlen : k < ((List.range len).map (fun k => pt size (r - k) (c + k))).length := by
    rw [List.length_map, List.length_range]
    exact h
  rw [List.getD_eq_getElem?_getD, List.getElem?_eq_getElem hlen]
  simp

theorem diag_walk_stop (b : List ℕ) (step : ℕ → ℕ) (fuel p : ℕ)
    (h : get_color b p ≠ EMPTY) : diag_walk b step fuel p = [] := by
  cases fuel with
  | zero => rfl
  | succ f =>
      unfold diag_walk
      rw [if_neg h]

theorem diag_walk_se_char (size : ℕ) :
    ∀ (fuel r c : ℕ), 1 ≤ r → r ≤ size → 1 ≤ c → c ≤ size →
      min (size - r) (size - c) + 2 ≤ fuel →
      diag_walk (reset_board size) (step_se size) fuel (pt size r c) =
        se_seg size r c (min (size - r) (size - c) + 1) := by
  intro fuel
  induction fuel with
  | zero =>
      intro r c _ _ _ _ hf
      omega
  | succ f ih =>
      intro r c hr1 hr2 hc1 hc2 hf
      unfold diag_walk
      rw [if_pos (by
        rw [get_color_reset_board, if_pos (interior_pt size r c hr1 hr2 hc1 hc2)])]
      rw [pt_step_se]
      by_cases hin : r < size ∧ c < size
      · rw [ih (r + 1) (c + 1) (by omega) (by omega) (by omega) (by omega)
          (by omega)]
        have e : min (size - r) (size - c) + 1 =
            (min (size - (r + 1)) (size - (c + 1)) + 1) + 1 := by omega
        rw [e, se_seg_cons size r c (min (size - (r + 1)) (size - (c + 1)) + 1)]
      · have hstop : ¬ interior size (pt size (r + 1) (c + 1)) := by
          rcases Nat.lt_or_ge c size with hcs | hcs
          · have hrs : r = size := by omega
            exact not_interior_row_big size (r + 1) (c + 1) (by omega) (by omega)
          · have hcs' : c = size := by omega
            rw [hcs', pt_col_wrap]
            exact not_interior_col0 size (r + 2)
        rw [diag_walk_stop (reset_board size) (step_se size) f _
          (reset_not_empty_of_not_interior size _ hstop)]
        have hmin : min (size - r) (size - c) = 0 := by omega
        rw [hmin]
        unfold se_seg
        rw [show (1 : ℕ) = 0 + 1 from rfl, List.range_succ]
        simp [pt]

theorem diag_walk_ne_char (size : ℕ) :
    ∀ (fuel r c : ℕ), 1 ≤ r → r ≤ size → 1 ≤ c → c ≤ size →
      min (r - 1) (size - c) + 2 ≤ fuel →
      diag_walk (reset_board size) (step_ne size) fuel (pt size r c) =
        ne_seg size r c (min (r - 1) (size - c) + 1) := by
  intro fuel
  induction fuel with
  | zero =>
      intro r c _ _ _ _ hf
      omega
  | succ f ih =>
      intro r c hr1 hr2 hc1 hc2 hf
      unfold diag_walk
      rw [if_pos (by
        rw [get_color_reset_board, if_pos (interior_pt size r c hr1 hr2 hc1 hc2)])]
      rw [pt_step_ne size r c hr1]
      by_cases hin : 2 ≤ r ∧ c < size
      · rw [ih (r - 1) (c + 1) (by omega) (by omega) (by omega) (by omega)
          (by omega)]
        have e : min (r - 1) (size - c) + 1 =
            (min (r - 1 - 1) (size - (c + 1)) + 1) + 1 := by omega
        rw [e, ne_seg_cons size r c (min (r - 1 - 1) (size - (c + 1)) + 1) hr1]
      · have hstop : ¬ interior size (pt size (r - 1) (c + 1)) := by
          rcases Nat.lt_or_ge c size with hcs | hcs
          · have hrs : r = 1 := by omega
            intro hint
            rw [hrs] at hint
            simp only [Nat.sub_self] at hint
            rw [interior, pt_div size 0 (c + 1) (by omega)] at hint
            omega
          · have hcs' : c = size := by omega
            rw [hcs', pt_col_wrap] at *
            intro hint
            have e : r - 1 + 1 = r := by omega
            rw [e] at hint
            exact not_interior_col0 size r hint
        rw [diag_walk_stop (reset_board size) (step_ne size) f _
          (reset_not_empty_of_not_interior size _ hstop)]
        have hmin : min (r - 1) (size - c) = 0 := by omega
        rw [hmin]
        unfold ne_seg
        rw [show (1 : ℕ) = 0 + 1 from rfl, List.range_succ]
        simp [pt]

theorem mem_rows_char (size : ℕ) (l : List ℕ) (hl : l ∈ rows_list size) :
    ∃ r, 1 ≤ r ∧ r ≤ size ∧ l = List.range' (row_start size r) size := by
  unfold rows_list at hl
  rw [List.mem_map] at hl
  obtain ⟨r, hr, rfl⟩ := hl
  have := List.mem_range'_1.mp hr
  exact ⟨r, by omega, by omega, rfl⟩

theorem rows_mem_of (size r : ℕ) (h1 : 1 ≤ r) (h2 : r ≤ size) :
    List.range' (row_start size r) size ∈ rows_list size := by
  unfold rows_list
  rw [List.mem_map]
  exact ⟨r, List.mem_range'_1.mpr ⟨h1, by omega⟩, rfl⟩

theorem mem_cols_char (size : ℕ) (l : List ℕ) (hl : l ∈ cols_list size) :
    ∃ c, 1 ≤ c ∧ c ≤ size ∧ l = List.range' (NS size + c) size (NS size) := by
  unfold cols_list at hl
  rw [List.mem_map] at hl
  obtain ⟨c, hc, rfl⟩ := hl
  have := List.mem_range'_1.mp hc
  exact ⟨c, by omega, by omega, rfl⟩

theorem cols_mem_of (size c : ℕ) (h1 : 1 ≤ c) (h2 : c ≤ size) :
    List.range' (NS size + c) size (NS size) ∈ cols_list size := by
  unfold cols_list
  rw [List.mem_map]
  exact ⟨c, List.mem_range'_1.mpr ⟨h1, by omega⟩, rfl⟩

theorem min_le_fuel (size r c : ℕ) (hr : r ≤ size) :
    min (size - r) (size - c) + 2 ≤ maxpoint size := by
  unfold maxpoint
  have h := Nat.min_le_left (size - r) (size - c)
  have h2 : 0 ≤ size * size := Nat.zero_le _
  omega

theorem min_le_fuel_ne (size r c : ℕ) (hr : r ≤ size) :
    min (r - 1) (size - c) + 2 ≤ maxpoint size := by
  unfold maxpoint
  have h := Nat.min_le_left (r - 1) (size - c)
  have h2 : 0 ≤ size * size := Nat.zero_le _
  omega

/-- Membership characterization of the precomputed diagonal lists: every
member is an SE segment anchored on the first row or first column, or an
NE segment anchored on the first column or last row, of length at least 5
and staying inside the playable area. -/
theorem mem_diags_char (size : ℕ) (hsize : 5 ≤ size) (l : List ℕ)
    (hl : l ∈ diags_list size) :
    (∃ r c len, l = se_seg size r c len ∧ 1 ≤ r ∧ 1 ≤ c ∧ 5 ≤ len ∧
      r + len ≤ size + 1 ∧ c + len ≤ size + 1) ∨
    (∃ r c len, l = ne_seg size r c len ∧ 1 ≤ c ∧ 5 ≤ len ∧ len ≤ r ∧
      r ≤ size ∧ c + len ≤ size + 1) := by
  unfold diags_list diags_of at hl
  rcases List.mem_append.mp hl with h12 | h3
  rcases List.mem_append.mp h12 with h1 | h2
  · -- loop 1: SE diagonals from the first row
    rw [List.mem_flatMap] at h1
    obtain ⟨i, hi, hmem⟩ := h1
    have hi' := List.mem_range'_1.mp hi
    rw [show row_start size 1 = NS size + 1 from by unfold row_start; ring] at hi'
    obtain ⟨c0, hc1, hc2, rfl⟩ : ∃ c0, 1 ≤ c0 ∧ c0 ≤ size ∧ i = pt size 1 c0 := by
      refine ⟨i - NS size, by omega, by omega, by unfold pt; omega⟩
    rw [diag_walk_se_char size (maxpoint size) 1 c0 (by omega)
      (by omega) hc1 hc2 (min_le_fuel size 1 _ (by omega))] at hmem
    by_cases hlen : 5 ≤ (se_seg size 1 c0 (min (size - 1) (size - c0) + 1)).length
    · rw [if_pos hlen] at hmem
      rw [List.mem_singleton] at hmem
      rw [se_seg_length] at hlen
      left
      exact ⟨1, c0, min (size - 1) (size - c0) + 1, hmem,
        by omega, hc1, hlen, by omega, by omega⟩
    · rw [if_neg hlen] at hmem
      exact absurd hmem (List.not_mem_nil l)
  · -- loop 2: SE and NE diagonals from the first column, rows 2..size
    rw [List.mem_flatMap] at h2
    obtain ⟨i, hi, hmem⟩ := h2
    rw [List.mem_range'] at hi
    obtain ⟨k, hk, rfl⟩ := hi
    have hc : 2 * NS size + 1 + (NS size) * k = pt size (k + 2) 1 := by
      unfold pt NS
      ring
    rw [hc] at hmem
    rcases List.mem_append.mp hmem with hse | hne
    · rw [diag_walk_se_char size (maxpoint size) (k + 2) 1 (by omega)
        (by omega) (by omega) (by omega)
        (min_le_fuel size (k + 2) 1 (by omega))] at hse
      by_cases hlen : 5 ≤ (se_seg size (k + 2) 1
          (min (size - (k + 2)) (size - 1) + 1)).length
      · rw [if_pos hlen] at hse
        rw [List.mem_singleton] at hse
        rw [se_seg_length] at hlen
        left
        exact ⟨k + 2, 1, min (size - (k + 2)) (size - 1) + 1, hse,
          by omega, by omega, hlen, by omega, by omega⟩
      · rw [if_neg hlen] at hse
        exact absurd hse (List.not_mem_nil l)
    · rw [diag_walk_ne_char size (maxpoint size) (k + 2) 1 (by omega)
        (by omega) (by omega) (by omega)
        (min_le_fuel_ne size (k + 2) 1 (by omega))] at hne
      by_cases hlen : 5 ≤ (ne_seg size (k + 2) 1
          (min (k + 2 - 1) (size - 1) + 1)).length
      · rw [if_pos hlen] at hne
        rw [List.mem_singleton] at hne
        rw [ne_seg_length] at hlen
        right
        exact ⟨k + 2, 1, min (k + 2 - 1) (size - 1) + 1, hne,
          by omega, hlen, by omega, by omega, by omega⟩
      · rw [if_neg hlen] at hne
        exact absurd hne (List.not_mem_nil l)
  · -- loop 3: NE diagonals from the last row
    rw [List.mem_flatMap] at h3
    obtain ⟨i, hi, hmem⟩ := h3
    have hi' := List.mem_range'_1.mp hi
    by_cases hwrap : i ≤ size * NS size + size
    · obtain ⟨c0, hc1, hc2, rfl⟩ : ∃ c0, 2 ≤ c0 ∧ c0 ≤ size ∧ i = pt size size c0 := by
        refine ⟨i - size * NS size, by omega, by omega, by unfold pt; omega⟩
      rw [diag_walk_ne_char size (maxpoint size) size c0
        (by omega) (by omega) (by omega) hc2
        (min_le_fuel_ne size size c0 (by omega))] at hmem
      by_cases hlen : 5 ≤ (ne_seg size size c0
          (min (size - 1) (size - c0) + 1)).length
      · rw [if_pos hlen] at hmem
        rw [List.mem_singleton] at hmem
        rw [ne_seg_length] at hlen
        right
        exact ⟨size, c0, min (size - 1) (size - c0) + 1,
          hmem, by omega, hlen, by omega, by omega, by omega⟩
      · rw [if_neg hlen] at hmem
        exact absurd hmem (List.not_mem_nil l)
    · -- the one extra iterate, column `size+1`: the walk starts on the
      -- BORDER cell `pt (size+1) 0` and yields []
      have hieq : i = pt size (size + 1) 0 := by
        have hNS : NS size = size + 1 := rfl
        have hsq : (size + 1) * (size + 1) = size * (size + 1) + (size + 1) := by
          ring
        unfold pt
        rw [hNS] at hi' hwrap ⊢
        omega
      rw [diag_walk_stop (reset_board size) (step_ne size) (maxpoint size) i
        (by
          rw [hieq]
          exact reset_not_empty_of_not_interior size _
            (not_interior_col0 size (size + 1)))] at hmem
      simp at hmem

theorem se_diag_mem_1 (size c0 : ℕ) (hsize : 5 ≤ size) (h1 : 1 ≤ c0)
    (h2 : c0 + 4 ≤ size) :
    se_seg size 1 c0 (size - c0 + 1) ∈ diags_list size := by
  unfold diags_list diags_of
  apply List.mem_append_left
  apply List.mem_append_left
  rw [List.mem_flatMap]
  refine ⟨pt size 1 c0, ?_, ?_⟩
  · apply List.mem_range'_1.mpr
    unfold pt row_start NS
    constructor <;> omega
  · rw [diag_walk_se_char size (maxpoint size) 1 c0 (by omega) (by omega) h1
      (by omega) (min_le_fuel size 1 c0 (by omega))]
    have hm : min (size - 1) (size - c0) = size - c0 := by omega
    rw [hm]
    rw [if_pos (by rw [se_seg_length]; omega)]
    exact List.mem_singleton.mpr rfl

theorem se_diag_mem_2 (size r0 : ℕ) (hsize : 5 ≤ size) (h1 : 2 ≤ r0)
    (h2 : r0 + 4 ≤ size) :
    se_seg size r0 1 (size - r0 + 1) ∈ diags_list size := by
  unfold diags_list diags_of
  apply List.mem_append_left
  apply List.mem_append_right
  rw [List.mem_flatMap]
  refine ⟨pt size r0 1, ?_, ?_⟩
  · apply List.mem_range'.mpr
    refine ⟨r0 - 2, by omega, ?_⟩
    unfold pt NS
    have h3 : r0 * (size + 1) = (r0 - 2) * (size + 1) + 2 * (size + 1) := by
      rw [← Nat.add_mul]
      congr 1
      omega
    have h4 : (size + 1) * (r0 - 2) = (r0 - 2) * (size + 1) := Nat.mul_comm _ _
    omega
  · apply List.mem_append_left
    rw [diag_walk_se_char size (maxpoint size) r0 1 (by omega) (by omega)
      (by omega) (by omega) (min_le_fuel size r0 1 (by omega))]
    have hm : min (size - r0) (size - 1) = size - r0 := by omega
    rw [hm]
    rw [if_pos (by rw [se_seg_length]; omega)]
    exact List.mem_singleton.mpr rfl

theorem ne_diag_mem_2 (size r0 : ℕ) (hsize : 5 ≤ size) (h1 : 5 ≤ r0)
    (h2 : r0 ≤ size) :
    ne_seg size r0 1 r0 ∈ diags_list size := by
  unfold diags_list diags_of
  apply List.mem_append_left
  apply List.mem_append_right
  rw [List.mem_flatMap]
  refine ⟨pt size r0 1, ?_, ?_⟩
  · apply List.mem_range'.mpr
    refine ⟨r0 - 2, by omega, ?_⟩
    unfold pt NS
    have h3 : r0 * (size + 1) = (r0 - 2) * (size + 1) + 2 * (size + 1) := by
      rw [← Nat.add_mul]
      congr 1
      omega
    have h4 : (size + 1) * (r0 - 2) = (r0 - 2) * (size + 1) := Nat.mul_comm _ _
    omega
  · apply List.mem_append_right
    rw [diag_walk_ne_char size (maxpoint size) r0 1 (by omega) (by omega)
      (by omega) (by omega) (min_le_fuel_ne size r0 1 (by omega))]
    have hm : min (r0 - 1) (size - 1) + 1 = r0 := by omega
    rw [hm]
    rw [if_pos (by rw [ne_seg_length]; omega)]
    exact List.mem_singleton.mpr rfl

theorem ne_diag_mem_3 (size c0 : ℕ) (hsize : 5 ≤ size) (h1 : 2 ≤ c0)
    (h2 : c0 + 4 ≤ size) :
    ne_seg size size c0 (size - c0 + 1) ∈ diags_list size := by
  unfold diags_list diags_of
  apply List.mem_append_right
  rw [List.mem_flatMap]
  refine ⟨pt size size c0, ?_, ?_⟩
  · apply List.mem_range'_1.mpr
    unfold pt NS
    constructor <;> omega
  · rw [diag_walk_ne_char size (maxpoint size) size c0 (by omega) (by omega)
      (by omega) (by omega) (min_le_fuel_ne size size c0 (by omega))]
    have hm : min (size - 1) (size - c0) = size - c0 := by omega
    rw [hm]
    rw [if_pos (by rw [ne_seg_length]; omega)]
    exact List.mem_singleton.mpr rfl

theorem getD_mem_of_lt (l : List ℕ) (i : ℕ) (h : i < l.length) :
    l.getD i 0 ∈ l := by
  rw [List.getD_eq_getElem?_getD, List.getElem?_eq_getElem h]
  exact List.getElem_mem h

/-- Every point of every precomputed line list is an interior point. -/
theorem lines_interior (size : ℕ) (hsize : 5 ≤ size) (l : List ℕ)
    (hl : l ∈ all_line_lists size) (x : ℕ) (hx : x ∈ l) :
    ∃ r c, 1 ≤ r ∧ r ≤ size ∧ 1 ≤ c ∧ c ≤ size ∧ x = pt size r c := by
  unfold all_line_lists at hl
  rcases List.mem_append.mp hl with hrc | hd
  rcases List.mem_append.mp hrc with hr | hc
  · obtain ⟨r, h1, h2, rfl⟩ := mem_rows_char size l hr
    have hx' := List.mem_range'_1.mp hx
    unfold row_start at hx'
    refine ⟨r, x - r * NS size, h1, h2, by omega, by omega, ?_⟩
    unfold pt
    omega
  · obtain ⟨c, h1, h2, rfl⟩ := mem_cols_char size l hc
    rw [List.mem_range'] at hx
    obtain ⟨k, hk, rfl⟩ := hx
    refine ⟨k + 1, c, by omega, by omega, h1, h2, ?_⟩
    unfold pt NS
    have e1 : (size + 1) * k = k * (size + 1) := Nat.mul_comm _ _
    have e2 : (k + 1) * (size + 1) = k * (size + 1) + (size + 1) :=
      Nat.succ_mul k (size + 1)
    omega
  · rcases mem_diags_char size hsize l hd with
      ⟨r, c, len, rfl, h1, h2, h5, hrl, hcl⟩ | ⟨r, c, len, rfl, h2, h5, hlr, hrs, hcl⟩
    · unfold se_seg at hx
      rw [List.mem_map] at hx
      obtain ⟨k, hk, rfl⟩ := hx
      rw [List.mem_range] at hk
      exact ⟨r + k, c + k, by omega, by omega, by omega, by omega, rfl⟩
    · unfold ne_seg at hx
      rw [List.mem_map] at hx
      obtain ⟨k, hk, rfl⟩ := hx
      rw [List.mem_range] at hk
      exact ⟨r - k, c + k, by omega, by omega, by omega, by omega, rfl⟩

/-- A five-window along any precomputed line list is a geometric
five-in-a-row run. -/
theorem window_run (size : ℕ) (hsize : 5 ≤ size) (b : List ℕ) (cc : ℕ)
    (l : List ℕ) (hl : l ∈ all_line_lists size) (hw : five_window b l cc) :
    spec_five_run size b cc := by
  obtain ⟨i, hlen, hcell⟩ := hw
  unfold all_line_lists at hl
  rcases List.mem_append.mp hl with hrc | hd
  rcases List.mem_append.mp hrc with hr | hc
  · obtain ⟨r, h1, h2, rfl⟩ := mem_rows_char size l hr
    rw [List.length_range'] at hlen
    left
    refine ⟨r, Finset.mem_Icc.mpr ⟨h1, h2⟩, 1 + i,
      Finset.mem_Icc.mpr ⟨by omega, by omega⟩, by omega, ?_⟩
    intro k hk
    rw [Finset.mem_range] at hk
    have := hcell k hk
    rw [getD_range' _ _ _ _ (by omega)] at this
    have e : row_start size r + 1 * (i + k) = pt size r (1 + i + k) := by
      unfold row_start pt
      omega
    rw [e] at this
    rw [show 1 + i + k = 1 + i + k from rfl]
    exact this
  · obtain ⟨c, h1, h2, rfl⟩ := mem_cols_char size l hc
    rw [List.length_range'] at hlen
    right; left
    refine ⟨1 + i, Finset.mem_Icc.mpr ⟨by omega, by omega⟩, c,
      Finset.mem_Icc.mpr ⟨h1, h2⟩, by omega, ?_⟩
    intro k hk
    rw [Finset.mem_range] at hk
    have := hcell k hk
    rw [getD_range' _ _ _ _ (by omega)] at this
    have e : NS size + c + NS size * (i + k) = pt size (1 + i + k) c := by
      unfold pt NS
      have e1 : (size + 1) * (i + k) = (i + k) * (size + 1) := Nat.mul_comm _ _
      have e2 : (1 + i + k) * (size + 1) = (i + k) * (size + 1) + (size + 1) := by
        rw [show 1 + i + k = (i + k) + 1 from by omega]
        exact Nat.succ_mul _ _
      omega
    rw [e] at this
    exact this
  · rcases mem_diags_char size hsize l hd with
      ⟨r, c, len, rfl, h1, h2, h5, hrl, hcl⟩ | ⟨r, c, len, rfl, h2, h5, hlr, hrs, hcl⟩
    · rw [se_seg_length] at hlen
      right; right; left
      refine ⟨r + i, Finset.mem_Icc.mpr ⟨by omega, by omega⟩, c + i,
        Finset.mem_Icc.mpr ⟨by omega, by omega⟩, by omega, by omega, ?_⟩
      intro k hk
      rw [Finset.mem_range] at hk
      have := hcell k hk
      rw [se_seg_getD _ _ _ _ _ (by omega)] at this
      have eA : r + (i + k) = r + i + k := by omega
      have eB : c + (i + k) = c + i + k := by omega
      rw [eA, eB] at this
      exact this
    · rw [ne_seg_length] at hlen
      right; right; right
      refine ⟨r - i - 4, Finset.mem_Icc.mpr ⟨by omega, by omega⟩, c + i,
        Finset.mem_Icc.mpr ⟨by omega, by omega⟩, by omega, by omega, ?_⟩
      intro k hk
      rw [Finset.mem_range] at hk
      have := hcell k hk
      rw [ne_seg_getD _ _ _ _ _ (by omega)] at this
      have eA : r - (i + k) = r - i - 4 + 4 - k := by omega
      have eB : c + (i + k) = c + i + k := by omega
      rw [eA, eB] at this
      exact this

/-- Every geometric five-in-a-row run lies, as a five-window, along one of
the precomputed line lists. -/
theorem run_covered (size : ℕ) (hsize : 5 ≤ size) (b : List ℕ) (cc : ℕ)
    (hrun : spec_five_run size b cc) :
    ∃ l ∈ all_line_lists size, five_window b l cc := by
  unfold spec_five_run at hrun
  rcases hrun with ⟨r, hr, c, hc, hc4, hcell⟩ | ⟨r, hr, c, hc, hr4, hcell⟩ |
    ⟨r, hr, c, hc, hr4, hc4, hcell⟩ | ⟨r, hr, c, hc, hr4, hc4, hcell⟩ <;>
    rw [Finset.mem_Icc] at hr hc
  · -- horizontal
    refine ⟨List.range' (row_start size r) size, ?_, c - 1, ?_, ?_⟩
    · unfold all_line_lists
      exact List.mem_append_left _
        (List.mem_append_left _ (rows_mem_of size r hr.1 hr.2))
    · rw [List.length_range']
      omega
    · intro k hk
      rw [getD_range' _ _ _ _ (by omega)]
      have e : row_start size r + 1 * (c - 1 + k) = pt size r (c + k) := by
        unfold row_start pt
        omega
      rw [e]
      exact hcell k (Finset.mem_range.mpr hk)
  · -- vertical
    refine ⟨List.range' (NS size + c) size (NS size), ?_, r - 1, ?_, ?_⟩
    · unfold all_line_lists
      exact List.mem_append_left _
        (List.mem_append_right _ (cols_mem_of size c hc.1 hc.2))
    · rw [List.length_range']
      omega
    · intro k hk
      rw [getD_range' _ _ _ _ (by omega)]
      have e : NS size + c + NS size * (r - 1 + k) = pt size (r + k) c := by
        unfold pt NS
        have e1 : (size + 1) * (r - 1 + k) = (r - 1 + k) * (size + 1) :=
          Nat.mul_comm _ _
        have e2 : (r + k) * (size + 1) = (r - 1 + k) * (size + 1) + (size + 1) := by
          rw [show r + k = (r - 1 + k) + 1 from by omega]
          exact Nat.succ_mul _ _
        omega
      rw [e]
      exact hcell k (Finset.mem_range.mpr hk)
  · -- SE diagonal
    rcases le_or_lt r c with hrc | hrc
    · refine ⟨se_seg size 1 (c - r + 1) (size - (c - r + 1) + 1), ?_, r - 1, ?_, ?_⟩
      · unfold all_line_lists
        exact List.mem_append_right _
          (se_diag_mem_1 size (c - r + 1) hsize (by omega) (by omega))
      · rw [se_seg_length]
        omega
      · intro k hk
        rw [se_seg_getD _ _ _ _ _ (by omega)]
        have eA : 1 + (r - 1 + k) = r + k := by omega
        have eB : c - r + 1 + (r - 1 + k) = c + k := by omega
        rw [eA, eB]
        exact hcell k (Finset.mem_range.mpr hk)
    · refine ⟨se_seg size (r - c + 1) 1 (size - (r - c + 1) + 1), ?_, c - 1, ?_, ?_⟩
      · unfold all_line_lists
        exact List.mem_append_right _
          (se_diag_mem_2 size (r - c + 1) hsize (by omega) (by omega))
      · rw [se_seg_length]
        omega
      · intro k hk
        rw [se_seg_getD _ _ _ _ _ (by omega)]
        have eA : r - c + 1 + (c - 1 + k) = r + k := by omega
        have eB : 1 + (c - 1 + k) = c + k := by omega
        rw [eA, eB]
        exact hcell k (Finset.mem_range.mpr hk)
  · -- NE (anti) diagonal
    rcases le_or_lt (r + c + 3) size with hbig | hsmall
    · refine ⟨ne_seg size (r + c + 3) 1 (r + c + 3), ?_, c - 1, ?_, ?_⟩
      · unfold all_line_lists
        exact List.mem_append_right _
          (ne_diag_mem_2 size (r + c + 3) hsize (by omega) hbig)
      · rw [ne_seg_length]
        omega
      · intro k hk
        rw [ne_seg_getD _ _ _ _ _ (by omega)]
        have eA : r + c + 3 - (c - 1 + k) = r + 4 - k := by omega
        have eB : 1 + (c - 1 + k) = c + k := by omega
        rw [eA, eB]
        exact hcell k (Finset.mem_range.mpr hk)
    · refine ⟨ne_seg size size (c + r + 4 - size) (size - (c + r + 4 - size) + 1),
        ?_, size - r - 4, ?_, ?_⟩
      · unfold all_line_lists
        exact List.mem_append_right _
          (ne_diag_mem_3 size (c + r + 4 - size) hsize (by omega) (by omega))
      · rw [ne_seg_length]
        omega
      · intro k hk
        rw [ne_seg_getD _ _ _ _ _ (by omega)]
        have eA : size - (size - r - 4 + k) = r + 4 - k := by omega
        have eB : c + r + 4 - size + (size - r - 4 + k) = c + k := by omega
        rw [eA, eB]
        exact hcell k (Finset.mem_range.mpr hk)

/-- C1: on any board of size at least 5 whose playable cells hold only
EMPTY/BLACK/WHITE, `detect_five_in_a_row` returns EMPTY exactly when no
unbroken run of five same-colored stones exists along any row, column or
diagonal, and any non-EMPTY answer is a stone color that does have such a
run. -/
theorem claim1_detect_five_iff (size : ℕ) (hsize : 5 ≤ size) (b : List ℕ)
    (hcells : ∀ r ∈ Finset.Icc 1 size, ∀ c ∈ Finset.Icc 1 size,
      get_color b (pt size r c) = EMPTY ∨ get_color b (pt size r c) = BLACK ∨
        get_color b (pt size r c) = WHITE) :
    (detect_five_in_a_row size b = EMPTY ↔
      ¬ (spec_five_run size b BLACK ∨ spec_five_run size b WHITE)) ∧
    (∀ cc, detect_five_in_a_row size b = cc → cc ≠ EMPTY →
      (cc = BLACK ∨ cc = WHITE) ∧ spec_five_run size b cc) := by
  have hsound : ∀ cc, detect_five_in_a_row size b = cc → cc ≠ EMPTY →
      (cc = BLACK ∨ cc = WHITE) ∧ spec_five_run size b cc := by
    intro cc hdet hcc
    obtain ⟨l, hlmem, hfive⟩ := detect_five_mem size b cc hdet hcc
    have hlist : ∀ x ∈ l, get_color b x ≠ BORDER := by
      intro x hx
      obtain ⟨r, c, h1, h2, h3, h4, rfl⟩ :=
        lines_interior size hsize l hlmem x hx
      rcases hcells r (Finset.mem_Icc.mpr ⟨h1, h2⟩) c
          (Finset.mem_Icc.mpr ⟨h3, h4⟩) with h | h | h <;>
        (rw [h]; decide)
    have hw := has_five_in_list_sound b l cc hlist hfive hcc
    refine ⟨?_, window_run size hsize b cc l hlmem hw⟩
    obtain ⟨i, hlen, hcell⟩ := hw
    have hmem0 : l.getD (i + 0) 0 ∈ l := getD_mem_of_lt l (i + 0) (by omega)
    obtain ⟨r, c, h1, h2, h3, h4, hpt⟩ :=
      lines_interior size hsize l hlmem _ hmem0
    have hval := hcells r (Finset.mem_Icc.mpr ⟨h1, h2⟩) c
      (Finset.mem_Icc.mpr ⟨h3, h4⟩)
    rw [← hpt] at hval
    rw [hcell 0 (by omega)] at hval
    rcases hval with h | h | h
    · exact absurd h hcc
    · exact Or.inl h
    · exact Or.inr h
  refine ⟨⟨?_, ?_⟩, hsound⟩
  · intro hdet hrun
    have hcc : ∀ cc, spec_five_run size b cc → cc ≠ EMPTY → False := by
      intro cc hr hne
      obtain ⟨l, hlmem, hw⟩ := run_covered size hsize b cc hr
      have := has_five_in_list_window b l cc hne hw
      exact this ((detect_five_eq_empty size b).mp hdet l hlmem)
    rcases hrun with h | h
    · exact hcc BLACK h (by decide)
    · exact hcc WHITE h (by decide)
  · intro hnone
    by_contra hne
    obtain ⟨hio, hrun⟩ := hsound (detect_five_in_a_row size b) rfl hne
    rcases hio with h | h <;> rw [h] at hrun
    · exact hnone (Or.inl hrun)
    · exact hnone (Or.inr hrun)

theorem claim1_witness :
    detect_five_in_a_row 5 black_row_board = BLACK ∧
    spec_five_run 5 black_row_board BLACK :=
  ⟨by decide,
    ((claim1_detect_five_iff 5 (by decide) black_row_board (by decide)).2
      BLACK (by decide) (by decide)).2⟩

/-! ### C10: attribute creation and the diagonal-count assert -/

theorem flatMap_congr_mem {α β : Type} (L : List α) (f g : α → List β)
    (h : ∀ a ∈ L, f a = g a) : L.flatMap f = L.flatMap g := by
  induction L with
  | nil => rfl
  | cons a L ih =>
      simp only [List.flatMap_cons]
      rw [h a (List.mem_cons_self a L), ih (fun x hx => h x (List.mem_cons_of_mem _ hx))]

theorem flatMap_ite_length {α β : Type} (L : List α) (P : α → Prop)
    [DecidablePred P] (g : α → List β) :
    (L.flatMap (fun i => if P i then [g i] else [])).length =
      L.countP (fun i => decide (P i)) := by
  induction L with
  | nil => rfl
  | cons a L ih =>
      simp only [List.flatMap_cons, List.length_append, List.countP_cons]
      by_cases h : P a
      · simp [h, ih]
        omega
      · simp [h, ih]

theorem flatMap_append_length {α β : Type} (L : List α) (f g : α → List β) :
    (L.flatMap (fun i => f i ++ g i)).length =
      (L.flatMap f).length + (L.flatMap g).length := by
  induction L with
  | nil => rfl
  | cons a L ih =>
      simp only [List.flatMap_cons, List.length_append]
      omega

theorem range'_eq_map (step : ℕ) :
    ∀ (n s : ℕ), List.range' s n step = (List.range n).map (fun k => s + step * k) := by
  intro n
  induction n with
  | zero => intro s; rfl
  | succ m ih =>
      intro s
      rw [List.range'_succ, ih (s + step), List.range_succ_eq_map]
      simp only [List.map_cons, List.map_map, Nat.mul_zero, Nat.add_zero]
      congr 1
      apply List.map_congr_left
      intro k _
      simp only [Function.comp_apply, Nat.succ_eq_add_one]
      have : step * (k + 1) = step * k + step := by ring
      omega

theorem countP_range_le (t : ℕ) :
    ∀ n : ℕ, (List.range n).countP (fun k => decide (k ≤ t)) = min n (t + 1) := by
  intro n
  induction n with
  | zero => rfl
  | succ m ih =>
      rw [List.range_succ, List.countP_append, ih]
      simp only [List.countP_cons, List.countP_nil]
      by_cases h : m ≤ t
      · simp [h]
        omega
      · simp [h]
        omega

theorem countP_range_ge (t : ℕ) :
    ∀ n : ℕ, (List.range n).countP (fun k => decide (t ≤ k)) = n - min n t := by
  intro n
  induction n with
  | zero => simp
  | succ m ih =>
      rw [List.range_succ, List.countP_append, ih]
      simp only [List.countP_cons, List.countP_nil]
      by_cases h : t ≤ m
      · simp [h]
        omega
      · simp [h]
        omega

theorem countP_range_le_shift (j t : ℕ) :
    ∀ n : ℕ, (List.range n).countP (fun k => decide (k + j ≤ t)) =
      min n (t + 1 - j) := by
  intro n
  induction n with
  | zero => simp
  | succ m ih =>
      rw [List.range_succ, List.countP_append, ih]
      simp only [List.countP_cons, List.countP_nil]
      by_cases h : m + j ≤ t
      · simp [h]
        omega
      · simp [h]
        omega

theorem flatMap_map_comp {α β γ : Type} (L : List α) (f : α → β) (g : β → List γ) :
    (L.map f).flatMap g = L.flatMap (fun x => g (f x)) := by
  induction L with
  | nil => rfl
  | cons a L ih => simp only [List.map_cons, List.flatMap_cons, ih]

theorem countP_congr_mem {α : Type} (L : List α) (p q : α → Bool)
    (h : ∀ a ∈ L, p a = q a) : L.countP p = L.countP q := by
  induction L with
  | nil => rfl
  | cons a L ih =>
      simp only [List.countP_cons, h a (List.mem_cons_self a L),
        ih (fun x hx => h x (List.mem_cons_of_mem _ hx))]

theorem loop1_length (size : ℕ) (hsize : 5 ≤ size) :
    ((List.range' (row_start size 1) size).flatMap (fun i =>
      let d := diag_walk (reset_board size) (step_se size) (maxpoint size) i
      if 5 ≤ d.length then [d] else [])).length = size - 4 := by
  rw [range'_eq_map 1 size (row_start size 1), flatMap_map_comp]
  rw [flatMap_congr_mem _ _
    (fun k => if 5 ≤ size - k then
      [se_seg size 1 (k + 1) (size - k)] else [])
    (by
      intro k hk
      rw [List.mem_range] at hk
      have hpt : row_start size 1 + 1 * k = pt size 1 (k + 1) := by
        unfold row_start pt
        omega
      show (let d := diag_walk (reset_board size) (step_se size) (maxpoint size)
              (row_start size 1 + 1 * k)
            if 5 ≤ d.length then [d] else []) =
        (if 5 ≤ size - k then [se_seg size 1 (k + 1) (size - k)] else [])
      rw [hpt, diag_walk_se_char size (maxpoint size) 1 (k + 1) (by omega)
        (by omega) (by omega) (by omega) (min_le_fuel size 1 (k + 1) (by omega))]
      have hm : min (size - 1) (size - (k + 1)) + 1 = size - k := by omega
      rw [hm]
      simp only [se_seg_length])]
  rw [flatMap_ite_length]
  rw [countP_congr_mem _ _ (fun k => decide (k ≤ size - 5))
    (by
      intro k hk
      rw [List.mem_range] at hk
      show decide (5 ≤ size - k) = decide (k ≤ size - 5)
      rw [decide_eq_decide]
      omega)]
  rw [countP_range_le]
  omega

theorem loop2_length (size : ℕ) (hsize : 5 ≤ size) :
    ((List.range' (2 * NS size + 1) (size - 1) (NS size)).flatMap (fun i =>
      (let d := diag_walk (reset_board size) (step_se size) (maxpoint size) i
       if 5 ≤ d.length then [d] else []) ++
      (let d := diag_walk (reset_board size) (step_ne size) (maxpoint size) i
       if 5 ≤ d.length then [d] else []))).length = (size - 5) + (size - 4) := by
  rw [range'_eq_map (NS size) (size - 1) (2 * NS size + 1), flatMap_map_comp]
  rw [flatMap_append_length]
  have hpt : ∀ k, 2 * NS size + 1 + NS size * k = pt size (k + 2) 1 := by
    intro k
    unfold pt NS
    ring
  congr 1
  · rw [flatMap_congr_mem _ _
      (fun k => if 5 ≤ size - (k + 1) then
        [se_seg size (k + 2) 1 (size - (k + 1))] else [])
      (by
        intro k hk
        rw [List.mem_range] at hk
        show (let d := diag_walk (reset_board size) (step_se size) (maxpoint size)
                (2 * NS size + 1 + NS size * k)
              if 5 ≤ d.length then [d] else []) =
          (if 5 ≤ size - (k + 1) then [se_seg size (k + 2) 1 (size - (k + 1))] else [])
        rw [hpt k, diag_walk_se_char size (maxpoint size) (k + 2) 1 (by omega)
          (by omega) (by omega) (by omega)
          (min_le_fuel size (k + 2) 1 (by omega))]
        have hm : min (size - (k + 2)) (size - 1) + 1 = size - (k + 1) := by omega
        rw [hm]
        simp only [se_seg_length])]
    rw [flatMap_ite_length]
    rw [countP_congr_mem _ _ (fun k => decide (k + 6 ≤ size))
      (by
        intro k hk
        rw [List.mem_range] at hk
        show decide (5 ≤ size - (k + 1)) = decide (k + 6 ≤ size)
        rw [decide_eq_decide]
        omega)]
    rw [countP_range_le_shift]
    omega
  · rw [flatMap_congr_mem _ _
      (fun k => if 3 ≤ k then [ne_seg size (k + 2) 1 (k + 2)] else [])
      (by
        intro k hk
        rw [List.mem_range] at hk
        show (let d := diag_walk (reset_board size) (step_ne size) (maxpoint size)
                (2 * NS size + 1 + NS size * k)
              if 5 ≤ d.length then [d] else []) =
          (if 3 ≤ k then [ne_seg size (k + 2) 1 (k + 2)] else [])
        rw [hpt k, diag_walk_ne_char size (maxpoint size) (k + 2) 1 (by omega)
          (by omega) (by omega) (by omega)
          (min_le_fuel_ne size (k + 2) 1 (by omega))]
        simp only [ne_seg_length]
        by_cases h : 3 ≤ k
        · rw [if_pos (by omega), if_pos h]
          have he : min (k + 2 - 1) (size - 1) + 1 = k + 2 := by omega
          rw [he]
        · rw [if_neg (by omega), if_neg h])]
    rw [flatMap_ite_length]
    rw [countP_congr_mem _ _ (fun k => decide (3 ≤ k))
      (by
        intro k _
        show decide (3 ≤ k) = decide (3 ≤ k)
        rfl)]
    rw [countP_range_ge]
    omega

theorem loop3_length (size : ℕ) (hsize : 5 ≤ size) :
    ((List.range' (size * NS size + 2) size).flatMap (fun i =>
      let d := diag_walk (reset_board size) (step_ne size) (maxpoint size) i
      if 5 ≤ d.length then [d] else [])).length = size - 5 := by
  rw [range'_eq_map 1 size (size * NS size + 2), flatMap_map_comp]
  rw [flatMap_congr_mem _ _
    (fun k => if 5 ≤ size - k - 1 then
      [ne_seg size size (k + 2) (size - k - 1)] else [])
    (by
      intro k hk
      rw [List.mem_range] at hk
      show (let d := diag_walk (reset_board size) (step_ne size) (maxpoint size)
              (size * NS size + 2 + 1 * k)
            if 5 ≤ d.length then [d] else []) =
        (if 5 ≤ size - k - 1 then [ne_seg size size (k + 2) (size - k - 1)] else [])
      by_cases hend : k + 2 ≤ size
      · have hpt : size * NS size + 2 + 1 * k = pt size size (k + 2) := by
          unfold pt
          omega
        rw [hpt, diag_walk_ne_char size (maxpoint size) size (k + 2) (by omega)
          (by omega) (by omega) (by omega)
          (min_le_fuel_ne size size (k + 2) (by omega))]
        have hm : min (size - 1) (size - (k + 2)) + 1 = size - k - 1 := by omega
        rw [hm]
        simp only [ne_seg_length]
      · have hpt : size * NS size + 2 + 1 * k = pt size (size + 1) 0 := by
          unfold pt NS
          have : (size + 1) * (size + 1) = size * (size + 1) + (size + 1) := by ring
          omega
        rw [hpt, diag_walk_stop (reset_board size) (step_ne size) (maxpoint size) _
          (reset_not_empty_of_not_interior size _ (not_interior_col0 size (size + 1)))]
        rw [if_neg (by simp), if_neg (by omega)])]
  rw [flatMap_ite_length]
  rw [countP_congr_mem _ _ (fun k => decide (k + 6 ≤ size))
    (by
      intro k hk
      rw [List.mem_range] at hk
      show decide (5 ≤ size - k - 1) = decide (k + 6 ≤ size)
      rw [decide_eq_decide]
      omega)]
  rw [countP_range_le_shift]
  omega

theorem diags_list_length (size : ℕ) (hsize : 5 ≤ size) :
    (diags_of size (reset_board size)).length = (2 * (size - 5) + 1) * 2 := by
  show (diags_list size).length = _
  unfold diags_list diags_of
  rw [List.length_append, List.length_append]
  rw [loop1_length size hsize, loop2_length size hsize, loop3_length size hsize]
  omega

theorem rows_list_length (size : ℕ) : (rows_list size).length = size := by
  unfold rows_list
  rw [List.length_map, List.length_range']

theorem cols_list_length (size : ℕ) : (cols_list size).length = size := by
  unfold cols_list
  rw [List.length_map, List.length_range']

theorem calculate_big (g : GoBoardState) (h5 : 5 ≤ g.size)
    (hb : g.board = reset_board g.size) :
    calculate_rows_cols_diags g =
      some { g with rcd := some (rows_list g.size, cols_list g.size,
        diags_of g.size g.board) } := by
  unfold calculate_rows_cols_diags
  rw [if_neg (by omega)]
  rw [if_pos ⟨rows_list_length g.size, cols_list_length g.size, by
    rw [hb]
    exact diags_list_length g.size h5⟩]

/-- C10: constructing a GoBoard succeeds for every accepted size 2..4, but
the terminal check then fails (the rows/cols/diags attributes were never
created, `calculate_rows_cols_diags` having returned early); for every
size from 5 up to the accepted maximum, construction succeeds — the
source's three length asserts hold — and the terminal check is total, on
any board contents. -/
theorem claim10_terminal_check_totality :
    (∀ s, 2 ≤ s → s ≤ 4 →
      ∃ g, mk_go_board s = some g ∧ detect_five_opt g = none) ∧
    (∀ s, 5 ≤ s → s ≤ MAXSIZE →
      ∃ g, mk_go_board s = some g ∧
        ∀ b', (detect_five_opt { g with board := b' }).isSome = true) := by
  constructor
  · intro s h2 h4
    interval_cases s <;> exact ⟨_, rfl, rfl⟩
  · intro s h5 hM
    refine ⟨{ size := s, board := reset_board s, current_player := BLACK,
              rcd := some (rows_list s, cols_list s, diags_of s (reset_board s)) },
      ?_, ?_⟩
    · unfold mk_go_board
      rw [if_pos ⟨by omega, hM⟩]
      unfold reset_full
      rw [calculate_big ⟨s, reset_board s, BLACK, none⟩ h5 rfl]
      rw [Option.some_bind]
      exact calculate_big _ h5 rfl
    · intro b'
      rfl

theorem claim10_witness :
    (∃ g, mk_go_board 3 = some g ∧ detect_five_opt g = none) ∧
    (∃ g, mk_go_board 6 = some g ∧
      ∀ b', (detect_five_opt { g with board := b' }).isSome = true) :=
  ⟨claim10_terminal_check_totality.1 3 (by decide) (by decide),
    claim10_terminal_check_totality.2 6 (by decide) (by decide)⟩

/-! ### C5: what the simple-board direction walks compute -/

theorem get_color_z_coe (b : List ℕ) (n : ℕ) :
    get_color_z b (n : ℤ) = get_color b n := by
  unfold get_color_z get_color
  rw [if_pos (by positivity)]
  simp

theorem stone_in_range (b : List ℕ) (q c : ℕ) (h : get_color b q = c)
    (hc : c ≠ BORDER) : q < b.length := by
  by_contra hq
  rw [get_color, List.getD_eq_default _ _ (by omega)] at h
  exact hc h.symm

theorem walk_count_char (b : List ℕ) (color : ℕ) (d : ℤ) :
    ∀ (m : ℕ) (p : ℤ) (k fuel : ℕ), run_matches b color d p m → m + 1 ≤ fuel →
      walk_count b color d fuel p k =
        some (if k < 5 ∧ 5 ≤ k + m then 5 else k + m) := by
  intro m
  induction m with
  | zero =>
      intro p k fuel hm hf
      obtain ⟨fuel', rfl⟩ : ∃ f, fuel = f + 1 := ⟨fuel - 1, by omega⟩
      unfold walk_count
      rw [if_neg (by
        have h := hm.2
        rw [show p + ((0 : ℕ) + 1 : ℤ) * d = p + d from by push_cast; ring] at h
        exact h)]
      rw [if_neg (by omega)]
      exact congrArg some (by omega)
  | succ m' ih =>
      intro p k fuel hm hf
      obtain ⟨fuel', rfl⟩ : ∃ f, fuel = f + 1 := ⟨fuel - 1, by omega⟩
      unfold walk_count
      rw [if_pos (by
        have h := hm.1 1 (by omega) (by omega)
        rw [show p + ((1 : ℕ) : ℤ) * d = p + d from by push_cast; ring] at h
        exact h)]
      have hm' : run_matches b color d (p + d) m' := by
        constructor
        · intro j hj1 hj2
          have h := hm.1 (j + 1) (by omega) (by omega)
          rw [show p + ((j + 1 : ℕ) : ℤ) * d = p + d + (j : ℤ) * d from by
            push_cast; ring] at h
          exact h
        · have h := hm.2
          rw [show p + (((m' + 1 : ℕ) : ℤ) + 1) * d = p + d + (((m' : ℕ) : ℤ) + 1) * d from by
            push_cast; ring] at h
          exact h
      by_cases hk : k + 1 = 5
      · rw [if_pos hk]
        rw [if_pos (by omega)]
      · rw [if_neg hk]
        rw [ih (p + d) (k + 1) fuel' hm' (by omega)]
        exact congrArg some (if_congr (by omega) rfl (by omega))

theorem run_matches_unique_aux (b : List ℕ) (color : ℕ) (d : ℤ) (p : ℤ)
    (m m' : ℕ) (h : run_matches b color d p m) (h' : run_matches b color d p m')
    (hlt : m < m') : False := by
  have hcell := h'.1 (m + 1) (by omega) (by omega)
  apply h.2
  rw [show p + (((m : ℕ) : ℤ) + 1) * d = p + ((m + 1 : ℕ) : ℤ) * d from by
    push_cast; ring]
  exact hcell

theorem run_matches_unique (b : List ℕ) (color : ℕ) (d : ℤ) (p : ℤ)
    (m m' : ℕ) (h : run_matches b color d p m) (h' : run_matches b color d p m') :
    m = m' := by
  rcases lt_trichotomy m m' with hlt | heq | hgt
  · exact absurd (run_matches_unique_aux b color d p m m' h h' hlt) id
  · exact heq
  · exact absurd (run_matches_unique_aux b color d p m' m h' h hgt) id

theorem run_matches_exists (b : List ℕ) (color : ℕ) (d : ℤ) (p : ℕ)
    (hc : color = BLACK ∨ color = WHITE) (hd : d ≠ 0) (hpb : p ≤ b.length) :
    ∃ m, m ≤ b.length ∧ run_matches b color d (p : ℤ) m := by
  have hcol : BORDER ≠ color := by rcases hc with h | h <;> rw [h] <;> decide
  have hQ : ∃ j : ℕ, j ≤ b.length ∧
      get_color_z b ((p : ℤ) + ((j : ℤ) + 1) * d) ≠ color := by
    rcases lt_or_gt_of_ne hd with hneg | hpos
    · refine ⟨p, hpb, ?_⟩
      have hd1 : d ≤ -1 := by omega
      have hlt : (p : ℤ) + ((p : ℤ) + 1) * d < 0 := by
        have hmul : ((p : ℤ) + 1) * d ≤ ((p : ℤ) + 1) * (-1) :=
          mul_le_mul_of_nonneg_left hd1 (by positivity)
        linarith
      unfold get_color_z
      rw [if_neg (by omega)]
      exact hcol
    · refine ⟨b.length, le_refl _, ?_⟩
      have hd1 : (1 : ℤ) ≤ d := by omega
      have hge : (b.length : ℤ) + 1 ≤ (p : ℤ) + ((b.length : ℤ) + 1) * d := by
        have hmul : ((b.length : ℤ) + 1) * 1 ≤ ((b.length : ℤ) + 1) * d :=
          mul_le_mul_of_nonneg_left hd1 (by positivity)
        have hp0 : (0 : ℤ) ≤ (p : ℤ) := by positivity
        linarith
      unfold get_color_z
      rw [if_pos (by omega)]
      rw [List.getD_eq_default _ _ (by omega)]
      exact hcol
  classical
  obtain ⟨j0, hj0b, hj0⟩ := hQ
  have hQ' : ∃ j : ℕ, ¬ get_color_z b ((p : ℤ) + ((j : ℤ) + 1) * d) = color := ⟨j0, hj0⟩
  refine ⟨Nat.find hQ', ?_, ?_, ?_⟩
  · exact le_trans (Nat.find_min' hQ' hj0) hj0b
  · intro j hj1 hj2
    have hmin := Nat.find_min hQ' (show j - 1 < Nat.find hQ' from by omega)
    push_neg at hmin
    rw [show (p : ℤ) + ((j : ℤ)) * d = (p : ℤ) + (((j - 1 : ℕ) : ℤ) + 1) * d from by
      have : ((j - 1 : ℕ) : ℤ) + 1 = (j : ℤ) := by omega
      rw [this]]
    exact hmin
  · exact Nat.find_spec hQ'

theorem pdcheck_char (b : List ℕ) (q : ℕ) (d : ℤ) (m1 m2 : ℕ)
    (h1 : run_matches b (get_color b q) d (q : ℤ) m1)
    (h2 : run_matches b (get_color b q) (-d) (q : ℤ) m2)
    (hm1 : m1 ≤ b.length) (hm2 : m2 ≤ b.length) :
    point_direction_check_connect_gomoko b q d =
      if 4 ≤ m1 ∧ 1 ≤ m2 then none else some (decide (4 ≤ m1 + m2)) := by
  by_cases h4 : 4 ≤ m1
  · have hw1 : walk_count b (get_color b q) d (b.length + 1) (q : ℤ) 1 = some 5 := by
      rw [walk_count_char b (get_color b q) d m1 (q : ℤ) 1 (b.length + 1) h1 (by omega),
        if_pos (show 1 < 5 ∧ 5 ≤ 1 + m1 from by omega)]
    have hw2 : walk_count b (get_color b q) (-d) (b.length + 1) (q : ℤ) 5 =
        some (5 + m2) := by
      rw [walk_count_char b (get_color b q) (-d) m2 (q : ℤ) 5 (b.length + 1) h2 (by omega),
        if_neg (show ¬(5 < 5 ∧ 5 ≤ 5 + m2) from by omega)]
    unfold point_direction_check_connect_gomoko
    simp only []
    rw [hw1]
    simp only []
    rw [hw2]
    simp only []
    by_cases h21 : 1 ≤ m2
    · rw [if_neg (show ¬ 5 + m2 ≤ 5 from by omega),
        if_pos (show 4 ≤ m1 ∧ 1 ≤ m2 from ⟨h4, h21⟩)]
    · have hm20 : m2 = 0 := by omega
      subst hm20
      rw [if_neg (show ¬(4 ≤ m1 ∧ 1 ≤ 0) from by omega),
        if_pos (show 5 + 0 ≤ 5 from by omega)]
      exact congrArg some (by rw [decide_eq_decide]; omega)
  · have hw1 : walk_count b (get_color b q) d (b.length + 1) (q : ℤ) 1 =
        some (1 + m1) := by
      rw [walk_count_char b (get_color b q) d m1 (q : ℤ) 1 (b.length + 1) h1 (by omega),
        if_neg (show ¬(1 < 5 ∧ 5 ≤ 1 + m1) from by omega)]
    have hw2 := walk_count_char b (get_color b q) (-d) m2 (q : ℤ) (1 + m1)
      (b.length + 1) h2 (by omega)
    unfold point_direction_check_connect_gomoko
    simp only []
    rw [hw1]
    simp only []
    rw [hw2]
    simp only []
    rw [if_neg (show ¬(4 ≤ m1 ∧ 1 ≤ m2) from by omega)]
    by_cases h5 : 5 ≤ 1 + m1 + m2
    · rw [if_pos (show 1 + m1 < 5 ∧ 5 ≤ 1 + m1 + m2 from by omega),
        if_pos (show (5 : ℕ) ≤ 5 from le_refl 5)]
      exact congrArg some (by rw [decide_eq_decide]; omega)
    · rw [if_neg (show ¬(1 + m1 < 5 ∧ 5 ≤ 1 + m1 + m2) from by omega),
        if_pos (show 1 + m1 + m2 ≤ 5 from by omega)]
      exact congrArg some (by rw [decide_eq_decide]; omega)

theorem pc_classify (b : List ℕ) (ns q : ℕ) (hns : 2 ≤ ns) (hq : q ≤ b.length)
    (hc : get_color b q = BLACK ∨ get_color b q = WHITE) :
    (point_check_game_end_gomoku b ns q = some true ∧ stone_sees_five b ns q) ∨
    (point_check_game_end_gomoku b ns q = some false ∧ ¬ stone_sees_five b ns q) ∨
    (point_check_game_end_gomoku b ns q = none ∧
      ∃ d ∈ gomoku_dirs ns, ∃ m1 m2,
        run_matches b (get_color b q) d (q : ℤ) m1 ∧
        run_matches b (get_color b q) (-d) (q : ℤ) m2 ∧ 4 ≤ m1 ∧ 1 ≤ m2) := by
  obtain ⟨a1, ha1b, hA1⟩ := run_matches_exists b (get_color b q) 1 q hc (by norm_num) hq
  obtain ⟨b1, hb1b, hB1⟩ := run_matches_exists b (get_color b q) (-1) q hc (by norm_num) hq
  obtain ⟨a2, ha2b, hA2⟩ := run_matches_exists b (get_color b q) (ns : ℤ) q hc (by omega) hq
  obtain ⟨b2, hb2b, hB2⟩ := run_matches_exists b (get_color b q) (-(ns : ℤ)) q hc (by omega) hq
  obtain ⟨a3, ha3b, hA3⟩ := run_matches_exists b (get_color b q) ((ns : ℤ) + 1) q hc (by omega) hq
  obtain ⟨b3, hb3b, hB3⟩ := run_matches_exists b (get_color b q) (-((ns : ℤ) + 1)) q hc (by omega) hq
  obtain ⟨a4, ha4b, hA4⟩ := run_matches_exists b (get_color b q) ((ns : ℤ) - 1) q hc (by omega) hq
  obtain ⟨b4, hb4b, hB4⟩ := run_matches_exists b (get_color b q) (-((ns : ℤ) - 1)) q hc (by omega) hq
  have e1 := pdcheck_char b q 1 a1 b1 hA1 hB1 ha1b hb1b
  have e2 := pdcheck_char b q (ns : ℤ) a2 b2 hA2 hB2 ha2b hb2b
  have e3 := pdcheck_char b q ((ns : ℤ) + 1) a3 b3 hA3 hB3 ha3b hb3b
  have e4 := pdcheck_char b q ((ns : ℤ) - 1) a4 b4 hA4 hB4 ha4b hb4b
  by_cases cr1 : 4 ≤ a1 ∧ 1 ≤ b1
  · refine Or.inr (Or.inr ⟨?_, 1, by simp [gomoku_dirs], a1, b1, hA1, hB1, cr1.1, cr1.2⟩)
    unfold point_check_game_end_gomoku
    rw [e1, if_pos cr1]
  · by_cases w1 : 4 ≤ a1 + b1
    · refine Or.inl ⟨?_, ?_⟩
      · unfold point_check_game_end_gomoku
        rw [e1, if_neg cr1, decide_eq_true w1]
      · unfold stone_sees_five dir_run_ge
        exact ⟨1, by simp [gomoku_dirs], a1, b1, hA1, hB1, by omega⟩
    · by_cases cr2 : 4 ≤ a2 ∧ 1 ≤ b2
      · refine Or.inr (Or.inr ⟨?_, (ns : ℤ), by simp [gomoku_dirs], a2, b2, hA2, hB2,
          cr2.1, cr2.2⟩)
        unfold point_check_game_end_gomoku
        rw [e1, if_neg cr1, decide_eq_false w1, e2, if_pos cr2]
      · by_cases w2 : 4 ≤ a2 + b2
        · refine Or.inl ⟨?_, ?_⟩
          · unfold point_check_game_end_gomoku
            rw [e1, if_neg cr1, decide_eq_false w1, e2, if_neg cr2, decide_eq_true w2]
          · unfold stone_sees_five dir_run_ge
            exact ⟨(ns : ℤ), by simp [gomoku_dirs], a2, b2, hA2, hB2, by omega⟩
        · by_cases cr3 : 4 ≤ a3 ∧ 1 ≤ b3
          · refine Or.inr (Or.inr ⟨?_, (ns : ℤ) + 1, by simp [gomoku_dirs], a3, b3,
              hA3, hB3, cr3.1, cr3.2⟩)
            unfold point_check_game_end_gomoku
            rw [e1, if_neg cr1, decide_eq_false w1, e2, if_neg cr2, decide_eq_false w2,
              e3, if_pos cr3]
          · by_cases w3 : 4 ≤ a3 + b3
            · refine Or.inl ⟨?_, ?_⟩
              · unfold point_check_game_end_gomoku
                rw [e1, if_neg cr1, decide_eq_false w1, e2, if_neg cr2, decide_eq_false w2,
                  e3, if_neg cr3, decide_eq_true w3]
              · unfold stone_sees_five dir_run_ge
                exact ⟨(ns : ℤ) + 1, by simp [gomoku_dirs], a3, b3, hA3, hB3, by omega⟩
            · by_cases cr4 : 4 ≤ a4 ∧ 1 ≤ b4
              · refine Or.inr (Or.inr ⟨?_, (ns : ℤ) - 1, by simp [gomoku_dirs], a4, b4,
                  hA4, hB4, cr4.1, cr4.2⟩)
                unfold point_check_game_end_gomoku
                rw [e1, if_neg cr1, decide_eq_false w1, e2, if_neg cr2, decide_eq_false w2,
                  e3, if_neg cr3, decide_eq_false w3, e4, if_pos cr4]
              · by_cases w4 : 4 ≤ a4 + b4
                · refine Or.inl ⟨?_, ?_⟩
                  · unfold point_check_game_end_gomoku
                    rw [e1, if_neg cr1, decide_eq_false w1, e2, if_neg cr2,
                      decide_eq_false w2, e3, if_neg cr3, decide_eq_false w3,
                      e4, if_neg cr4, decide_eq_true w4]
                  · unfold stone_sees_five dir_run_ge
                    exact ⟨(ns : ℤ) - 1, by simp [gomoku_dirs], a4, b4, hA4, hB4, by omega⟩
                · refine Or.inr (Or.inl ⟨?_, ?_⟩)
                  · unfold point_check_game_end_gomoku
                    rw [e1, if_neg cr1, decide_eq_false w1, e2, if_neg cr2,
                      decide_eq_false w2, e3, if_neg cr3, decide_eq_false w3,
                      e4, if_neg cr4, decide_eq_false w4]
                  · rintro ⟨d, hdmem, m1, m2, r1, r2, h5⟩
                    simp only [gomoku_dirs, List.mem_cons, List.mem_singleton,
                      List.not_mem_nil, or_false] at hdmem
                    rcases hdmem with rfl | rfl | rfl | rfl
                    · have u1 := run_matches_unique b (get_color b q) 1 (q : ℤ) m1 a1 r1 hA1
                      have u2 := run_matches_unique b (get_color b q) (-1) (q : ℤ) m2 b1 r2 hB1
                      omega
                    · have u1 := run_matches_unique b (get_color b q) (ns : ℤ)
                        (q : ℤ) m1 a2 r1 hA2
                      have u2 := run_matches_unique b (get_color b q) (-(ns : ℤ))
                        (q : ℤ) m2 b2 r2 hB2
                      omega
                    · have u1 := run_matches_unique b (get_color b q) ((ns : ℤ) + 1)
                        (q : ℤ) m1 a3 r1 hA3
                      have u2 := run_matches_unique b (get_color b q) (-((ns : ℤ) + 1))
                        (q : ℤ) m2 b3 r2 hB3
                      omega
                    · have u1 := run_matches_unique b (get_color b q) ((ns : ℤ) - 1)
                        (q : ℤ) m1 a4 r1 hA4
                      have u2 := run_matches_unique b (get_color b q) (-((ns : ℤ) - 1))
                        (q : ℤ) m2 b4 r2 hB4
                      omega

theorem crash_earlier (b : List ℕ) (ns q : ℕ) (d : ℤ) (hd : 0 < d)
    (hc : get_color b q = BLACK ∨ get_color b q = WHITE)
    (hmem : d ∈ gomoku_dirs ns) (m1 m2 : ℕ)
    (h1 : run_matches b (get_color b q) d (q : ℤ) m1)
    (h2 : run_matches b (get_color b q) (-d) (q : ℤ) m2)
    (hm1 : 4 ≤ m1) (hm2 : 1 ≤ m2) :
    ∃ p0, p0 < q ∧ get_color b p0 = get_color b q ∧ stone_sees_five b ns p0 := by
  have hcB : get_color b q ≠ BORDER := by rcases hc with h | h <;> rw [h] <;> decide
  have hj1 := h2.1 1 (le_refl 1) hm2
  rw [show (q : ℤ) + ((1 : ℕ) : ℤ) * (-d) = (q : ℤ) - d from by push_cast; ring] at hj1
  have hnn : 0 ≤ (q : ℤ) - d := by
    by_contra hlt
    unfold get_color_z at hj1
    rw [if_neg (by omega)] at hj1
    exact hcB hj1.symm
  have hp0 : ((((q : ℤ) - d).toNat : ℕ) : ℤ) = (q : ℤ) - d := Int.toNat_of_nonneg hnn
  have hcol0 : get_color b ((q : ℤ) - d).toNat = get_color b q := by
    rw [← get_color_z_coe, hp0]
    exact hj1
  have hlt0 : ((q : ℤ) - d).toNat < q := by omega
  have hr1 : run_matches b (get_color b q) d ((((q : ℤ) - d).toNat : ℕ) : ℤ) (m1 + 1) := by
    constructor
    · intro j hj1' hj2'
      obtain ⟨j', rfl⟩ : ∃ j', j = j' + 1 := ⟨j - 1, by omega⟩
      rcases Nat.eq_zero_or_pos j' with hz | hpos
      · subst hz
        rw [show ((((q : ℤ) - d).toNat : ℕ) : ℤ) + ((0 + 1 : ℕ) : ℤ) * d = (q : ℤ) from by
          rw [hp0]; push_cast; ring]
        rw [get_color_z_coe]
      · have h := h1.1 j' hpos (by omega)
        rw [show ((((q : ℤ) - d).toNat : ℕ) : ℤ) + ((j' + 1 : ℕ) : ℤ) * d =
            (q : ℤ) + ((j' : ℕ) : ℤ) * d from by rw [hp0]; push_cast; ring]
        exact h
    · have h := h1.2
      rw [show ((((q : ℤ) - d).toNat : ℕ) : ℤ) + (((m1 + 1 : ℕ) : ℤ) + 1) * d =
          (q : ℤ) + (((m1 : ℕ) : ℤ) + 1) * d from by rw [hp0]; push_cast; ring]
      exact h
  obtain ⟨m2', rfl⟩ : ∃ m2', m2 = m2' + 1 := ⟨m2 - 1, by omega⟩
  have hr2 : run_matches b (get_color b q) (-d) ((((q : ℤ) - d).toNat : ℕ) : ℤ) m2' := by
    constructor
    · intro j hj1' hj2'
      have h := h2.1 (j + 1) (by omega) (by omega)
      rw [show ((((q : ℤ) - d).toNat : ℕ) : ℤ) + ((j : ℕ) : ℤ) * (-d) =
          (q : ℤ) + ((j + 1 : ℕ) : ℤ) * (-d) from by rw [hp0]; push_cast; ring]
      exact h
    · have h := h2.2
      rw [show ((((q : ℤ) - d).toNat : ℕ) : ℤ) + (((m2' : ℕ) : ℤ) + 1) * (-d) =
          (q : ℤ) + (((m2' + 1 : ℕ) : ℤ) + 1) * (-d) from by rw [hp0]; push_cast; ring]
      exact h
  refine ⟨((q : ℤ) - d).toNat, hlt0, hcol0, ?_⟩
  unfold stone_sees_five dir_run_ge
  rw [hcol0]
  exact ⟨d, hmem, m1 + 1, m2', hr1, hr2, by omega⟩

theorem scan_finds (b : List ℕ) (ns w p : ℕ) :
    ∀ L : List ℕ, p ∈ L → L.Pairwise (· < ·) →
      point_check_game_end_gomoku b ns p = some true →
      (∀ q ∈ L, q < p → point_check_game_end_gomoku b ns q = some false) →
      scan_points_for b ns w L = some (some w) := by
  intro L
  induction L with
  | nil => intro h; exact absurd h (List.not_mem_nil p)
  | cons x rest ih =>
      intro hmem hpw hptrue hprev
      rcases List.mem_cons.mp hmem with rfl | hmem'
      · unfold scan_points_for
        rw [hptrue]
      · have hxp : x < p := (List.pairwise_cons.mp hpw).1 p hmem'
        have hx : point_check_game_end_gomoku b ns x = some false :=
          hprev x (List.mem_cons_self x rest) hxp
        unfold scan_points_for
        rw [hx]
        exact ih hmem' (List.pairwise_cons.mp hpw).2 hptrue
          (fun q hq hqp => hprev q (List.mem_cons_of_mem x hq) hqp)

theorem where1d_pairwise (b : List ℕ) (c : ℕ) : (where1d b c).Pairwise (· < ·) :=
  (List.pairwise_lt_range b.length).sublist (List.filter_sublist _)

theorem sees_of_run (b : List ℕ) (ns q : ℕ) (d : ℤ) (col : ℕ)
    (hcol : col = BLACK ∨ col = WHITE) (hmem : d ∈ gomoku_dirs ns) (hdne : d ≠ 0)
    (cell : ℕ → ℕ) (hcell0 : cell 0 = q)
    (hcast : ∀ j : ℕ, j ≤ 4 → ((cell j : ℕ) : ℤ) = (q : ℤ) + (j : ℤ) * d)
    (hcolall : ∀ j : ℕ, j ≤ 4 → get_color b (cell j) = col) :
    get_color b q = col ∧ stone_sees_five b ns q := by
  have hq0 : get_color b q = col := by rw [← hcell0]; exact hcolall 0 (by omega)
  have hcB : col ≠ BORDER := by rcases hcol with h | h <;> rw [h] <;> decide
  have hql : q ≤ b.length := le_of_lt (stone_in_range b q col hq0 hcB)
  obtain ⟨m1, hm1b, hr1⟩ := run_matches_exists b col d q hcol hdne hql
  obtain ⟨m2, hm2b, hr2⟩ := run_matches_exists b col (-d) q hcol (neg_ne_zero.mpr hdne) hql
  have h4 : 4 ≤ m1 := by
    by_contra h4
    apply hr1.2
    have e : (q : ℤ) + ((m1 : ℤ) + 1) * d = ((cell (m1 + 1) : ℕ) : ℤ) := by
      rw [hcast (m1 + 1) (by omega)]
      push_cast
      ring
    rw [e, get_color_z_coe]
    exact hcolall (m1 + 1) (by omega)
  refine ⟨hq0, ?_⟩
  unfold stone_sees_five dir_run_ge
  rw [hq0]
  exact ⟨d, hmem, m1, m2, hr1, hr2, by omega⟩

theorem run_gives_sees (size : ℕ) (b : List ℕ) (col : ℕ) (_hsize : 5 ≤ size)
    (hcol : col = BLACK ∨ col = WHITE) (h : spec_five_run size b col) :
    ∃ q, get_color b q = col ∧ stone_sees_five b (NS size) q := by
  rcases h with ⟨r, hr, c, hc, hle, hcell⟩ | ⟨r, hr, c, hc, hle, hcell⟩ |
    ⟨r, hr, c, hc, hle1, hle2, hcell⟩ | ⟨r, hr, c, hc, hle1, hle2, hcell⟩
  · refine ⟨pt size r c,
      sees_of_run b (NS size) (pt size r c) 1 col hcol (by simp [gomoku_dirs])
        (by norm_num) (fun j => pt size r (c + j)) rfl ?_ ?_⟩
    · intro j hj
      unfold pt NS
      push_cast
      ring
    · intro j hj
      exact hcell j (Finset.mem_range.mpr (by omega))
  · refine ⟨pt size r c,
      sees_of_run b (NS size) (pt size r c) ((NS size : ℕ) : ℤ) col hcol
        (by simp [gomoku_dirs]) (by unfold NS; push_cast; omega)
        (fun j => pt size (r + j) c) rfl ?_ ?_⟩
    · intro j hj
      unfold pt NS
      push_cast
      ring
    · intro j hj
      exact hcell j (Finset.mem_range.mpr (by omega))
  · refine ⟨pt size r c,
      sees_of_run b (NS size) (pt size r c) (((NS size : ℕ) : ℤ) + 1) col hcol
        (by simp [gomoku_dirs]) (by unfold NS; push_cast; omega)
        (fun j => pt size (r + j) (c + j)) rfl ?_ ?_⟩
    · intro j hj
      unfold pt NS
      push_cast
      ring
    · intro j hj
      exact hcell j (Finset.mem_range.mpr (by omega))
  · refine ⟨pt size r (c + 4),
      sees_of_run b (NS size) (pt size r (c + 4)) (((NS size : ℕ) : ℤ) - 1) col hcol
        (by simp [gomoku_dirs]) (by unfold NS; push_cast; omega)
        (fun j => pt size (r + j) (c + (4 - j))) rfl ?_ ?_⟩
    · intro j hj
      unfold pt NS
      push_cast [Nat.cast_sub hj]
      ring
    · intro j hj
      have hcj := hcell (4 - j) (Finset.mem_range.mpr (by omega))
      have e1 : r + 4 - (4 - j) = r + j := by omega
      rw [e1] at hcj
      exact hcj

/-- C5 (amended): `check_game_end_gomoku` scans all WHITE stones before all
BLACK stones (lines 406-421 iterate `where1d(board == WHITE)` first) and
returns the first color whose stone completes a five; in particular, on any
board where both a BLACK five and a WHITE five exist, it reports WHITE —
not BLACK as claimed. -/
theorem claim5_amended (size : ℕ) (b : List ℕ) (hsize : 5 ≤ size)
    (hw : spec_five_run size b WHITE) (_hb : spec_five_run size b BLACK) :
    check_game_end_gomoku b (NS size) = some (true, some WHITE) := by
  classical
  have hns2 : 2 ≤ NS size := by unfold NS; omega
  obtain ⟨q0, hq0w, hq0s⟩ := run_gives_sees size b WHITE hsize (Or.inr rfl) hw
  have hex : ∃ p, get_color b p = WHITE ∧ stone_sees_five b (NS size) p :=
    ⟨q0, hq0w, hq0s⟩
  have hPm := Nat.find_spec hex
  have hmin : ∀ p', p' < Nat.find hex →
      ¬(get_color b p' = WHITE ∧ stone_sees_five b (NS size) p') :=
    fun p' hlt => Nat.find_min hex hlt
  have hpmlen : Nat.find hex < b.length :=
    stone_in_range b (Nat.find hex) WHITE hPm.1 (by decide)
  have hfalse : ∀ q, get_color b q = WHITE → q < Nat.find hex →
      point_check_game_end_gomoku b (NS size) q = some false := by
    intro q hqw hqlt
    have hql : q ≤ b.length := le_of_lt (stone_in_range b q WHITE hqw (by decide))
    rcases pc_classify b (NS size) q hns2 hql (Or.inr hqw) with
      ⟨_, hs⟩ | ⟨hf, _⟩ | ⟨_, hcr⟩
    · exact absurd ⟨hqw, hs⟩ (hmin q hqlt)
    · exact hf
    · obtain ⟨d, hdm, m1, m2, r1, r2, h41, h12⟩ := hcr
      have hdm' := hdm
      simp only [gomoku_dirs, List.mem_cons, List.not_mem_nil, or_false] at hdm'
      have hdpos : 0 < d := by rcases hdm' with rfl | rfl | rfl | rfl <;> omega
      obtain ⟨p0, hp0lt, hp0c, hp0s⟩ := crash_earlier b (NS size) q d hdpos
        (Or.inr hqw) hdm m1 m2 r1 r2 h41 h12
      exact absurd ⟨hp0c.trans hqw, hp0s⟩ (hmin p0 (by omega))
  have htrue : point_check_game_end_gomoku b (NS size) (Nat.find hex) = some true := by
    rcases pc_classify b (NS size) (Nat.find hex) hns2 (le_of_lt hpmlen)
      (Or.inr hPm.1) with ⟨ht, _⟩ | ⟨_, hns'⟩ | ⟨_, hcr⟩
    · exact ht
    · exact absurd hPm.2 hns'
    · obtain ⟨d, hdm, m1, m2, r1, r2, h41, h12⟩ := hcr
      have hdm' := hdm
      simp only [gomoku_dirs, List.mem_cons, List.not_mem_nil, or_false] at hdm'
      have hdpos : 0 < d := by rcases hdm' with rfl | rfl | rfl | rfl <;> omega
      obtain ⟨p0, hp0lt, hp0c, hp0s⟩ := crash_earlier b (NS size) (Nat.find hex) d
        hdpos (Or.inr hPm.1) hdm m1 m2 r1 r2 h41 h12
      exact absurd ⟨hp0c.trans hPm.1, hp0s⟩ (hmin p0 hp0lt)
  have hpmmem : Nat.find hex ∈ where1d b WHITE :=
    (mem_where1d b WHITE (Nat.find hex)).mpr ⟨hpmlen, hPm.1⟩
  have hscan : scan_points_for b (NS size) WHITE (where1d b WHITE) = some (some WHITE) :=
    scan_finds b (NS size) WHITE (Nat.find hex) (where1d b WHITE) hpmmem
      (where1d_pairwise b WHITE) htrue
      (fun q hq hqlt => hfalse q ((mem_where1d b WHITE q).mp hq).2 hqlt)
  unfold check_game_end_gomoku
  rw [hscan]

/-- C5 (counterexample to the claimed order): on `both_fives_board` both a
BLACK five and a WHITE five exist, yet `check_game_end_gomoku` reports
WHITE, because the source scans `np.where(board == WHITE)` before
`np.where(board == BLACK)` — the claim's BLACK-before-WHITE order and its
"reports BLACK" consequence are both refuted. -/
theorem claim5_counterexample :
    spec_five_run 5 both_fives_board BLACK ∧
    spec_five_run 5 both_fives_board WHITE ∧
    check_game_end_gomoku both_fives_board (NS 5) = some (true, some WHITE) ∧
    WHITE ≠ BLACK := by
  refine ⟨by decide, by decide, by decide, by decide⟩

theorem claim5_witness :
    (5 ≤ 5 ∧ spec_five_run 5 both_fives_board WHITE ∧
      spec_five_run 5 both_fives_board BLACK) ∧
    check_game_end_gomoku both_fives_board (NS 5) = some (true, some WHITE) :=
  ⟨⟨le_refl 5, by decide, by decide⟩,
    claim5_amended 5 both_fives_board (le_refl 5) (by decide) (by decide)⟩
